import Mathlib

/-!
Verification of the path-provenance index (`pathIndex`) of the salto
workspace: path hints, index maintenance, path lookup and element
splitting.  Definitions are shallow embeddings of the TypeScript source;
components that live outside the provided sources (the `ElemID` identifier
class of `adapter-api`, the `filterByID` helper of `adapter-utils` and the
`RemoteMap` store) are modelled from the specification, as indicated on
their doc comments.
-/

namespace Salto

/-- A `Path` is an ordered sequence of opaque string segments naming the
source fragment a value came from. -/
abbrev Path := List String

/-- Dot-joining of name segments, as performed by `idParts.join('.')` in
`getFromPathIndex` and by full-name rendering of identifiers. -/
def joinDot : List String → String
  | [] => ""
  | [s] => s
  | s :: s2 :: rest => s ++ "." ++ joinDot (s2 :: rest)

/-- Modelled from the spec: the `ElemID` identifier of `adapter-api` is not
among the provided sources.  The spec (§3) describes an id as an ordered,
dot-joined sequence of string segments together with top-level-parent
extraction that keeps a kind-dependent leading prefix of the segments.  We
model an id as its segment list plus the length of that top-level prefix. -/
structure ElemID where
  parts : List String
  topLen : Nat
deriving DecidableEq, Repr

instance : Inhabited ElemID := ⟨⟨[], 0⟩⟩

/-- Full-name rendering of an id (dot-joined segments). -/
def ElemID.getFullName (e : ElemID) : String := joinDot e.parts

/-- Modelled from the spec: nested-id construction appends one segment. -/
def ElemID.createNestedID (e : ElemID) (k : String) : ElemID :=
  ⟨e.parts ++ [k], e.topLen⟩

/-- Modelled from the spec: the full name of
`elemID.createTopLevelParentID().parent` — the dot-join of the leading
top-level prefix of the segments. -/
def ElemID.topLevelParentKey (e : ElemID) : String :=
  joinDot (e.parts.take e.topLen)

/-- Runtime values (`Value` in `adapter-api`): plain objects, arrays,
scalars, and the JavaScript `undefined`. -/
inductive Value where
  | map (entries : List (String × Value))
  | list (elems : List Value)
  | prim (s : String)
  | undefined

instance : Inhabited Value := ⟨.undefined⟩

/-- `_.isPlainObject` — true exactly on plain objects. -/
def Value.isPlainObject : Value → Bool
  | .map _ => true
  | _ => false

/-- `values.isDefined` — everything except `undefined`. -/
def Value.isDefined : Value → Bool
  | .undefined => false
  | _ => true

/-- `Object.keys` of a value (empty list on non-objects). -/
def Value.objKeys : Value → List String
  | .map entries => entries.map (·.1)
  | _ => []

/-- Property access `value[key]`: the stored value on objects, otherwise
(or when the key is absent) `undefined`. -/
def Value.objGet : Value → String → Value
  | .map entries, k => (((entries.find? (fun p => p.1 = k)).map (·.2)).getD .undefined)
  | _, _ => .undefined

/-- `Fragment<T>`: one unmerged contribution, a value paired with the
path of the source fragment it came from. -/
structure Fragment (T : Type) where
  value : T
  path : Path

instance {T : Type} [Inhabited T] : Inhabited (Fragment T) := ⟨⟨default, []⟩⟩

/-- `PathHint` (also the shape of `RemoteMapEntry<Path[]>`): one index
record, a fully-qualified id string mapped to an ordered list of paths. -/
structure PathHint where
  key : String
  value : List Path
deriving DecidableEq, Repr

/-- `_.uniq`: deduplication keeping the first occurrence of each element. -/
def uniqAux : List String → List String → List String
  | _, [] => []
  | seen, x :: xs => if x ∈ seen then uniqAux seen xs else x :: uniqAux (x :: seen) xs

/-- `_.uniq` with first-seen order. -/
def uniq (l : List String) : List String := uniqAux [] l

theorem mem_of_mem_uniqAux {seen l : List String} {a : String}
    (h : a ∈ uniqAux seen l) : a ∈ l := by
  induction l generalizing seen with
  | nil => simp [uniqAux] at h
  | cons x xs ih =>
    simp only [uniqAux] at h
    by_cases hx : x ∈ seen
    · simp [hx] at h
      exact List.mem_cons_of_mem _ (ih h)
    · simp [hx] at h
      rcases h with h | h
      · simp [h]
      · exact List.mem_cons_of_mem _ (ih h)

theorem mem_of_mem_uniq {l : List String} {a : String} (h : a ∈ uniq l) : a ∈ l :=
  mem_of_mem_uniqAux h

theorem mem_uniqAux_of_mem {seen l : List String} {a : String}
    (hl : a ∈ l) (hs : a ∉ seen) : a ∈ uniqAux seen l := by
  induction l generalizing seen with
  | nil => cases hl
  | cons x xs ih =>
    simp only [uniqAux]
    rcases List.mem_cons.mp hl with rfl | hl
    · by_cases hx : a ∈ seen
      · exact absurd hx hs
      · simp [hx]
    · by_cases hx : x ∈ seen
      · simp [hx]
        exact ih hl hs
      · simp [hx]
        by_cases hax : a = x
        · simp [hax]
        · right
          exact ih hl (by simp [hax, hs])

theorem mem_uniq_iff {l : List String} {a : String} : a ∈ uniq l ↔ a ∈ l :=
  ⟨mem_of_mem_uniq, fun h => mem_uniqAux_of_mem h (by simp)⟩

theorem sizeOf_objGet_lt {v : Value} {k : String}
    (h : (v.objGet k).isDefined = true) : sizeOf (v.objGet k) < sizeOf v := by
  cases v with
  | map entries =>
    simp only [Value.objGet] at *
    cases hf : entries.find? (fun p => p.1 = k) with
    | none => simp [hf, Value.isDefined] at h
    | some p =>
      have hmem : p ∈ entries := List.mem_of_find?_eq_some hf
      have h1 : sizeOf p < sizeOf entries := List.sizeOf_lt_of_mem hmem
      have h2 : sizeOf p.2 < sizeOf p := by
        cases p with
        | mk a b => simp

      simp only [hf, Option.map_some', Option.getD_some]
      have : sizeOf entries < sizeOf (Value.map entries) := by simp
      omega
  | list elems => simp [Value.objGet, Value.isDefined] at h
  | prim s => simp [Value.objGet, Value.isDefined] at h
  | undefined => simp [Value.objGet, Value.isDefined] at h

theorem sizeOf_value_pos (v : Value) : 0 < sizeOf v := by
  cases v <;> simp

/-- The sub-fragment lists formed inside `getValuePathHints` have strictly
smaller total value size; used for termination. -/
theorem sub_fragments_size_lt (fragments : List (Fragment Value)) (k : String)
    (hne : fragments ≠ []) :
    ((fragments.filter (fun f => (f.value.objGet k).isDefined)).map
        (fun f => sizeOf (f.value.objGet k))).sum
      < (fragments.map (fun f => sizeOf f.value)).sum := by
  have weak : ∀ fs : List (Fragment Value),
      ((fs.filter (fun f => (f.value.objGet k).isDefined)).map
          (fun f => sizeOf (f.value.objGet k))).sum
        ≤ (fs.map (fun f => sizeOf f.value)).sum := by
    intro fs
    induction fs with
    | nil => simp
    | cons f rest ih =>
      by_cases hf : (f.value.objGet k).isDefined = true
      · have h1 := sizeOf_objGet_lt hf
        simp [List.filter_cons, hf]
        omega
      · simp [List.filter_cons, hf]
        omega
  cases fragments with
  | nil => exact absurd rfl hne
  | cons f rest =>
    have hrest := weak rest
    by_cases hf : (f.value.objGet k).isDefined = true
    · have h1 := sizeOf_objGet_lt hf
      simp [List.filter_cons, hf]
      omega
    · have h2 := sizeOf_value_pos f.value
      simp [List.filter_cons, hf]
      omega

/-- `getValuePathHints`: hints for one nested value assembled from
`fragments`, keyed at `elemID`.  One fragment is the terminal case; if all
fragments are plain objects we recurse per key of the union of keys (in
first-seen order), skipping fragments where the key is absent or
undefined; anything else produces no hints. -/
def getValuePathHints (fragments : List (Fragment Value)) (elemID : ElemID) :
    List PathHint :=
  if fragments.length = 1 then
    [⟨elemID.getFullName, [(fragments.head!).path]⟩]
  else if fragments.all (fun f => f.value.isPlainObject) then
    (uniq (fragments.flatMap (fun f => f.value.objKeys))).attach.flatMap
      (fun kh => getValuePathHints
        ((fragments.filter (fun f => (f.value.objGet kh.1).isDefined)).map
          (fun f => Fragment.mk (f.value.objGet kh.1) f.path))
        (elemID.createNestedID kh.1))
  else []
termination_by (fragments.map (fun f => sizeOf f.value)).sum
decreasing_by
  have hne : fragments ≠ [] := by
    rcases kh with ⟨key, hk⟩
    have hmem : key ∈ fragments.flatMap (fun f => f.value.objKeys) := mem_of_mem_uniq hk
    rcases List.mem_flatMap.mp hmem with ⟨f, hf, _⟩
    exact List.ne_nil_of_mem hf
  simpa only [List.map_map, Function.comp] using sub_fragments_size_lt fragments kh.1 hne

/-- A `Field` of an object type: its own id plus its annotation values. -/
structure Field where
  elemID : ElemID
  annotations : List (String × Value)

instance : Inhabited Field := ⟨⟨default, []⟩⟩

/-- The kind-specific payload of an element: object types own a field
mapping, instance elements own a value tree (a plain mapping at the top),
anything else carries no extra structure used here. -/
inductive ElementKind where
  | objectType (fields : List (String × Field))
  | instanceElement (value : List (String × Value))
  | other

/-- An unmerged element: id, optional source path, annotation values, the
names of its declared annotation ref types, and its kind payload. -/
structure Element where
  elemID : ElemID
  path : Option Path
  annotations : List (String × Value)
  annotationRefTypes : List String
  kind : ElementKind

instance : Inhabited Element := ⟨⟨default, none, [], [], .other⟩⟩

/-- `isObjectType` runtime predicate. -/
def isObjectType (e : Element) : Bool :=
  match e.kind with
  | .objectType _ => true
  | _ => false

/-- `isInstanceElement` runtime predicate. -/
def isInstanceElement (e : Element) : Bool :=
  match e.kind with
  | .instanceElement _ => true
  | _ => false

/-- The field mapping of an element (empty on non-object-types). -/
def Element.fields (e : Element) : List (String × Field) :=
  match e.kind with
  | .objectType fs => fs
  | _ => []

/-- The value tree of an element (empty on non-instances). -/
def Element.instValue (e : Element) : List (String × Value) :=
  match e.kind with
  | .instanceElement v => v
  | _ => []

/-- Access `fields[name]` on a field mapping (`undefined` as `none`). -/
def fieldsGet (fs : List (String × Field)) (n : String) : Option Field :=
  (fs.find? (fun p => p.1 = n)).map (·.2)

/-- `getAnnotationTypesPathHints`: one hint at `id.annotation` when exactly
one fragment declares annotation types, otherwise one hint per declared
annotation-type key naming its single owning fragment. -/
def getAnnotationTypesPathHints (fragments : List (Fragment Element)) :
    List PathHint :=
  let fragmentsWithNonEmptyAnnoTypes :=
    fragments.filter (fun f => !f.value.annotationRefTypes.isEmpty)
  if fragmentsWithNonEmptyAnnoTypes.length = 1 then
    [⟨((fragmentsWithNonEmptyAnnoTypes.head!).value.elemID.createNestedID
        "annotation").getFullName,
      [(fragmentsWithNonEmptyAnnoTypes.head!).path]⟩]
  else
    fragmentsWithNonEmptyAnnoTypes.flatMap (fun f =>
      f.value.annotationRefTypes.map (fun annoKey =>
        ⟨((f.value.elemID.createNestedID "annotation").createNestedID
            annoKey).getFullName,
          [f.path]⟩))

/-- `getAnnotationPathHints`: value hints over the annotation mappings,
keyed at the element id for instances and at `id.attr` otherwise. -/
def getAnnotationPathHints (fragments : List (Fragment Element)) :
    List PathHint :=
  getValuePathHints
    (fragments.map (fun f => Fragment.mk (Value.map f.value.annotations) f.path))
    (if isInstanceElement (fragments.head!).value then
      (fragments.head!).value.elemID
    else (fragments.head!).value.elemID.createNestedID "attr")

/-- `getFieldPathHints`: hints for one field assembled from the fragments
that define it. -/
def getFieldPathHints (fragments : List (Fragment Field)) : List PathHint :=
  if fragments.length = 0 then []
  else if fragments.length = 1 then
    [⟨(fragments.head!).value.elemID.getFullName, [(fragments.head!).path]⟩]
  else
    getValuePathHints
      (fragments.map (fun f => Fragment.mk (Value.map f.value.annotations) f.path))
      (fragments.head!).value.elemID
    ++ [⟨(fragments.head!).value.elemID.getFullName, fragments.map (·.path)⟩]

/-- `getFieldsPathHints`: one hint at `id.field` when exactly one fragment
has a non-empty field mapping, otherwise per-field hints over the union of
field names. -/
def getFieldsPathHints (fragments : List (Fragment Element)) : List PathHint :=
  let fragmentsWithFields := fragments.filter (fun f => !f.value.fields.isEmpty)
  if fragmentsWithFields.length = 1 then
    [⟨((fragmentsWithFields.head!).value.elemID.createNestedID
        "field").getFullName,
      [(fragmentsWithFields.head!).path]⟩]
  else
    (uniq (fragmentsWithFields.flatMap (fun f => f.value.fields.map (·.1)))).flatMap
      (fun fieldName =>
        getFieldPathHints
          ((fragments.filter (fun f => (fieldsGet f.value.fields fieldName).isSome)).map
            (fun f => Fragment.mk ((fieldsGet f.value.fields fieldName).getD default)
              f.path)))

/-- `getElementPathHints`: hints for one element assembled from its
fragments — annotation-type, annotation, field (object types), value
(instances) hints, plus the final catch-all hint listing all paths. -/
def getElementPathHints (elementFragments : List (Fragment Element)) :
    List PathHint :=
  if elementFragments.length = 0 then []
  else if elementFragments.length = 1 then
    [⟨(elementFragments.head!).value.elemID.getFullName,
      [(elementFragments.head!).path]⟩]
  else
    let annoTypesHints := getAnnotationTypesPathHints elementFragments
    let annotationHints := getAnnotationPathHints elementFragments
    let fieldHints :=
      if elementFragments.all (fun f => isObjectType f.value) then
        getFieldsPathHints elementFragments
      else []
    let valueHints :=
      if elementFragments.all (fun f => isInstanceElement f.value) then
        getValuePathHints
          (elementFragments.map (fun f =>
            Fragment.mk (Value.map f.value.instValue) f.path))
          (elementFragments.head!).value.elemID
      else []
    annoTypesHints ++ annotationHints ++ fieldHints ++ valueHints ++
      [⟨(elementFragments.head!).value.elemID.getFullName,
        elementFragments.map (·.path)⟩]

/-- `_.groupBy` keyed by a string: keys in first-seen order, each group in
input order. -/
def groupByKey {α : Type} (key : α → String) (l : List α) :
    List (String × List α) :=
  (uniq (l.map key)).map (fun k => (k, l.filter (fun a => key a == k)))

/-- `getElementsPathHints`: group by full id, keep fragments that carry a
path, and emit the per-element hints of each group. -/
def getElementsPathHints (unmergedElements : List Element) : List PathHint :=
  (groupByKey (fun e => e.elemID.getFullName) unmergedElements).flatMap (fun g =>
    getElementPathHints
      ((g.2.filter (fun e => e.path.isSome)).map
        (fun e => Fragment.mk e (e.path.getD []))))

/-- `getTopLevelPathHints`: keep elements that carry a path, group by full
id, and emit one hint per id listing all its fragment paths. -/
def getTopLevelPathHints (unmergedElements : List Element) : List PathHint :=
  (groupByKey (fun e => e.elemID.getFullName)
      (unmergedElements.filter (fun e => e.path.isSome))).map
    (fun g => ⟨g.1, g.2.map (fun e => e.path.getD [])⟩)

/-- Modelled from the spec: the external `RemoteMap` store (the Path Index
Store contract of §6) is an asynchronous ordered mapping, embedded here as
an association list observed only through `get`. -/
abbrev Store := List (String × List Path)

/-- Store lookup: `get(key)` — the value of the first entry carrying the
key. -/
def Store.get : Store → String → Option (List Path)
  | [], _ => none
  | e :: rest, k => if e.1 = k then some e.2 else Store.get rest k

/-- The keys currently in the store: `keys()`. -/
def Store.keysList (s : Store) : List String := s.map (·.1)

/-- `deleteAll(keys)`: remove every entry whose key appears in `ks`. -/
def Store.deleteAll (s : Store) (ks : List String) : Store :=
  s.filter (fun e => !ks.contains e.1)

/-- A single upsert: overwrite an existing key in place or append. -/
def Store.set : Store → String → List Path → Store
  | [], k, v => [(k, v)]
  | e :: rest, k, v => if e.1 = k then (k, v) :: rest else e :: Store.set rest k v

/-- `setAll(entries)`: upsert every entry, later entries winning. -/
def Store.setAll (s : Store) (es : List PathHint) : Store :=
  es.foldl (fun acc e => acc.set e.key e.value) s

/-- `clear()`. -/
def Store.clear (_ : Store) : Store := []

/-- The value an entry list associates to a key once all its entries have
been upserted (the last entry with that key wins). -/
def entriesGet : List PathHint → String → Option (List Path)
  | [], _ => none
  | e :: rest, k =>
    match entriesGet rest k with
    | some v => some v
    | none => if e.key = k then some e.value else none

/-- `updateIndex`: with no `unmergedElementIDs` clear the store, otherwise
delete every existing key whose top-level parent id is not a known id;
then write the hints computed on the changed elements.  The key-to-
top-level-parent map (`ElemID.fromFullName(key).createTopLevelParentID()
.parent.getFullName()` in the source, external to the provided sources) is
passed as the parameter `tlp`. -/
def updateIndex (tlp : String → String) (pathIndex : Store)
    (changedUnmergedElements : List Element)
    (unmergedElementIDs : Option (List String))
    (getHintsFunction : List Element → List PathHint) : Store :=
  let pruned :=
    match unmergedElementIDs with
    | none => pathIndex.clear
    | some ids =>
      let entriesToDelete :=
        pathIndex.keysList.filter (fun key => !ids.contains (tlp key))
      pathIndex.deleteAll entriesToDelete
  pruned.setAll (getHintsFunction changedUnmergedElements)

/-- The loop of `getFromPathIndex`: try the dot-join of the current
segment list; a non-empty recorded list is returned whole on the first
iteration and as its first element afterwards; otherwise drop the last
segment and repeat until the segment list empties or the key just tried
was already the top-level-parent key. -/
def getFromPathIndexGo (index : Store) (topLevelKey : String)
    (idParts : List String) (isExactMatch : Bool) : List Path :=
  let key := joinDot idParts
  let pathHints := (index.get key).getD []
  if pathHints.length > 0 then
    if isExactMatch then pathHints else [pathHints.head!]
  else if 0 < idParts.dropLast.length ∧ key ≠ topLevelKey then
    getFromPathIndexGo index topLevelKey idParts.dropLast false
  else []
termination_by idParts.length
decreasing_by
  rename_i h
  have := h.1
  have hlen : idParts.dropLast.length = idParts.length - 1 := by
    simp [List.length_dropLast]
  omega

/-- `getFromPathIndex` (the spec's `resolvePaths`). -/
def getFromPathIndex (elemID : ElemID) (index : Store) : List Path :=
  getFromPathIndexGo index elemID.topLevelParentKey elemID.parts true

mutual

/-- Modelled from the spec: `filterByID` of `adapter-utils` is not among
the provided sources.  Per §4.3 it is a top-down membership filter over
the element structure (annotations, fields, nested values): a sub-value is
retained exactly when the predicate holds of its id, sub-ids being formed
with nested-id construction (list items by their index), and a mapping or
list whose filtering removed everything becomes `undefined`. -/
def filterValueByID (pred : ElemID → Bool) (id : ElemID) : Value → Option Value
  | .map entries =>
    if pred id then
      let filtered := filterEntriesByID pred id entries
      if filtered.isEmpty then none else some (.map filtered)
    else none
  | .list elems =>
    if pred id then
      let filtered := filterListByID pred id 0 elems
      if filtered.isEmpty then none else some (.list filtered)
    else none
  | .prim s => if pred id then some (.prim s) else none
  | .undefined => if pred id then some .undefined else none

def filterEntriesByID (pred : ElemID → Bool) (id : ElemID) :
    List (String × Value) → List (String × Value)
  | [] => []
  | (k, v) :: rest =>
    match filterValueByID pred (id.createNestedID k) v with
    | some v2 => (k, v2) :: filterEntriesByID pred id rest
    | none => filterEntriesByID pred id rest

def filterListByID (pred : ElemID → Bool) (id : ElemID) (i : Nat) :
    List Value → List Value
  | [] => []
  | v :: rest =>
    match filterValueByID pred (id.createNestedID (toString i)) v with
    | some v2 => v2 :: filterListByID pred id (i + 1) rest
    | none => filterListByID pred id (i + 1) rest

end

/-- Modelled from the spec: `filterByID` applied to a whole element —
the element survives only if its own id passes; annotations are filtered
under the annotation base id, fields under their own ids, instance values
under the element id. -/
def filterElementByID (pred : ElemID → Bool) (e : Element) : Option Element :=
  if pred e.elemID then
    some { e with
      annotations :=
        filterEntriesByID pred
          (if isInstanceElement e then e.elemID
           else e.elemID.createNestedID "attr")
          e.annotations,
      kind :=
        match e.kind with
        | .objectType fs =>
          .objectType (fs.filterMap (fun nf =>
            if pred nf.2.elemID then
              some (nf.1,
                { nf.2 with
                  annotations := filterEntriesByID pred nf.2.elemID nf.2.annotations })
            else none))
        | .instanceElement vs =>
          .instanceElement (filterEntriesByID pred e.elemID vs)
        | .other => .other }
  else none

/-- `splitElementByPath`: with at most one resolved path, one copy tagged
with that path (or untagged); otherwise one filtered copy per resolved
path, each tagged, copies whose filtering removed everything dropped. -/
def splitElementByPath (element : Element) (index : Store) : List Element :=
  let pathHints := getFromPathIndex element.elemID index
  if pathHints.length ≤ 1 then
    [{ element with path := pathHints.head? }]
  else
    (pathHints.map (fun hint =>
      (filterElementByID
        (fun id => (getFromPathIndex id index).any (fun idHint => idHint == hint))
        element).map
        (fun fe => { fe with path := some hint }))).reduceOption

/-! Extensional characterization of the store operations. -/

theorem Store.get_set (s : Store) (k : String) (v : List Path) (q : String) :
    (s.set k v).get q = if k = q then some v else s.get q := by
  induction s with
  | nil =>
    by_cases h : k = q <;> simp [Store.set, Store.get, h]
  | cons e rest ih =>
    by_cases hek : e.1 = k
    · by_cases hkq : k = q <;> simp [Store.set, Store.get, hek, hkq]
    · by_cases heq : e.1 = q
      · have hkq : ¬ k = q := fun h => hek (h ▸ heq)
        have hqk : ¬ q = k := fun h => hkq h.symm
        simp [Store.set, Store.get, hek, heq, hkq, hqk]
      · simp [Store.set, Store.get, hek, heq, ih]

theorem Store.get_setAll (s : Store) (es : List PathHint) (q : String) :
    (s.setAll es).get q =
      match entriesGet es q with
      | some v => some v
      | none => s.get q := by
  induction es generalizing s with
  | nil => simp [Store.setAll, entriesGet]
  | cons e rest ih =>
    show ((s.set e.key e.value).setAll rest).get q = _
    rw [ih]
    simp only [entriesGet]
    cases entriesGet rest q with
    | some v => simp
    | none =>
      rw [Store.get_set]
      by_cases he : e.key = q <;> simp [he]

theorem Store.get_deleteAll (s : Store) (ks : List String) (q : String) :
    (s.deleteAll ks).get q = if q ∈ ks then none else s.get q := by
  induction s with
  | nil => simp [Store.deleteAll, Store.get]
  | cons e rest ih =>
    simp only [Store.deleteAll, List.filter_cons] at ih ⊢
    by_cases hmem : e.1 ∈ ks
    · by_cases heq : e.1 = q
      · subst heq
        simpa [hmem] using ih
      · rw [if_neg (by simp [hmem]), ih]
        simp [Store.get, heq]
    · by_cases heq : e.1 = q
      · subst heq
        rw [if_pos (by simp [hmem])]
        simp [hmem, Store.get]
      · rw [if_pos (by simp [hmem])]
        simpa [Store.get, heq] using ih

theorem Store.get_eq_none_iff (s : Store) (q : String) :
    s.get q = none ↔ q ∉ s.keysList := by
  induction s with
  | nil => simp [Store.get, Store.keysList]
  | cons e rest ih =>
    rcases e with ⟨a, b⟩
    by_cases he : a = q
    · subst he
      simp [Store.get, Store.keysList]
    · simp [Store.get, Store.keysList, he, ih, Ne.symm he]

theorem entriesGet_eq_none_of_not_mem {es : List PathHint} {q : String}
    (h : ∀ e ∈ es, e.key ≠ q) : entriesGet es q = none := by
  induction es with
  | nil => rfl
  | cons e rest ih =>
    have he : e.key ≠ q := h e (by simp)
    simp only [entriesGet, ih (fun x hx => h x (by simp [hx])), he, if_false]

theorem entriesGet_eq_some_value {es : List PathHint} {q : String} {v : List Path}
    (h : entriesGet es q = some v) : ∃ e ∈ es, e.key = q ∧ e.value = v := by
  induction es with
  | nil => simp [entriesGet] at h
  | cons e rest ih =>
    simp only [entriesGet] at h
    cases hrest : entriesGet rest q with
    | some w =>
      rw [hrest] at h
      rcases ih (hrest.trans (by simpa using h)) with ⟨x, hx, hk, hv⟩
      exact ⟨x, by simp [hx], hk, hv⟩
    | none =>
      rw [hrest] at h
      by_cases he : e.key = q
      · simp only [he, if_true] at h
        exact ⟨e, by simp, he, by injection h⟩
      · simp [he] at h

theorem entriesGet_isSome_of_mem {es : List PathHint} {e : PathHint}
    (hmem : e ∈ es) : ∃ v, entriesGet es e.key = some v := by
  induction es with
  | nil => cases hmem
  | cons x rest ih =>
    simp only [entriesGet]
    rcases List.mem_cons.mp hmem with rfl | hmem2
    · cases hr : entriesGet rest e.key with
      | some v => exact ⟨v, rfl⟩
      | none => exact ⟨e.value, by simp⟩
    · rcases ih hmem2 with ⟨v, hv⟩
      exact ⟨v, by simp [hv]⟩

/-- Extensional characterization of `updateIndex` in both modes. -/
theorem updateIndex_get (tlp : String → String) (s : Store)
    (changed : List Element) (hintFn : List Element → List PathHint)
    (q : String) :
    ((updateIndex tlp s changed none hintFn).get q =
      match entriesGet (hintFn changed) q with
      | some v => some v
      | none => none) ∧
    (∀ ids : List String,
      (updateIndex tlp s changed (some ids) hintFn).get q =
        match entriesGet (hintFn changed) q with
        | some v => some v
        | none => if tlp q ∈ ids then s.get q else none) := by
  constructor
  · rw [updateIndex, Store.get_setAll]
    cases entriesGet (hintFn changed) q with
    | some v => simp
    | none => simp [Store.clear, Store.get]
  · intro ids
    rw [updateIndex]
    simp only
    rw [Store.get_setAll, Store.get_deleteAll]
    cases entriesGet (hintFn changed) q with
    | some v => simp
    | none =>
      simp only
      by_cases htlp : tlp q ∈ ids
      · have hnot : q ∉ s.keysList.filter (fun key => !ids.contains (tlp key)) := by
          intro hq
          rcases List.mem_filter.mp hq with ⟨_, hpred⟩
          simp [htlp] at hpred
        rw [if_neg hnot, if_pos htlp]
      · by_cases hkey : q ∈ s.keysList
        · have hin : q ∈ s.keysList.filter (fun key => !ids.contains (tlp key)) :=
            List.mem_filter.mpr ⟨hkey, by simp [htlp]⟩
          rw [if_pos hin, if_neg htlp]
        · have hnone : s.get q = none := (Store.get_eq_none_iff s q).mpr hkey
          have hnot : q ∉ s.keysList.filter (fun key => !ids.contains (tlp key)) :=
            fun hq => hkey (List.mem_filter.mp hq).1
          rw [if_neg hnot, if_neg htlp, hnone]

/-! Properties of dot-joined keys of prefixes of a segment list. -/

theorem string_length_pos {s : String} (h : s ≠ "") : 0 < s.length := by
  cases s with
  | mk data =>
    cases data with
    | nil => simp at h
    | cons c cs => simp [String.length]

theorem joinDot_append_singleton (l : List String) (x : String) (h : l ≠ []) :
    joinDot (l ++ [x]) = joinDot l ++ "." ++ x := by
  induction l with
  | nil => exact absurd rfl h
  | cons a rest ih =>
    cases rest with
    | nil => simp [joinDot]
    | cons b rest2 =>
      have h2 := ih (by simp)
      simp only [List.cons_append, List.append_eq, joinDot] at h2 ⊢
      rw [h2]
      simp [String.append_assoc]

theorem joinDot_take_length_lt (P : List String) (hseg : ∀ x ∈ P, x ≠ "") :
    ∀ j2 j, j < j2 → j2 ≤ P.length →
      (joinDot (P.take j)).length < (joinDot (P.take j2)).length := by
  have hstep : ∀ m, m < P.length →
      (joinDot (P.take m)).length < (joinDot (P.take (m + 1))).length := by
    intro m hm
    have htk : P.take (m + 1) = P.take m ++ (P[m]?).toList := List.take_succ
    have hget : P[m]? = some P[m] := List.getElem?_eq_getElem hm
    rw [htk, hget]
    have hne : P[m] ≠ "" := hseg _ (List.getElem_mem hm)
    have hlen : 0 < (P[m]).length := string_length_pos hne
    cases htm : P.take m with
    | nil => simpa [joinDot] using hlen
    | cons a l2 =>
      rw [← htm]
      have hne2 : P.take m ≠ [] := by simp [htm]
      have hsingle : (some P[m]).toList = [P[m]] := rfl
      rw [hsingle, joinDot_append_singleton _ _ hne2,
        String.length_append, String.length_append]
      have hdot : ("." : String).length = 1 := rfl
      omega
  intro j2
  induction j2 with
  | zero => intro j h _; omega
  | succ m ih =>
    intro j hjj hj2
    rcases Nat.lt_or_ge j m with h | h
    · exact lt_trans (ih j h (by omega)) (hstep m (by omega))
    · have hjm : j = m := by omega
      subst hjm
      exact hstep j (by omega)

theorem joinDot_take_eq_iff (P : List String) (t : Nat) (hseg : ∀ x ∈ P, x ≠ "")
    {j : Nat} (hjt : t ≤ j) (hjn : j ≤ P.length) :
    joinDot (P.take j) = joinDot (P.take t) ↔ j = t := by
  constructor
  · intro h
    by_contra hne
    have hlt : t < j := by omega
    have := joinDot_take_length_lt P hseg j t hlt hjn
    rw [h] at this
    omega
  · intro h
    rw [h]

/-! Traversal analysis of the `getFromPathIndex` loop. -/

theorem getFromPathIndexGo_eq (s : Store) (tlk : String) (idParts : List String)
    (ex : Bool) :
    getFromPathIndexGo s tlk idParts ex =
      if ((s.get (joinDot idParts)).getD []).length > 0 then
        (if ex then (s.get (joinDot idParts)).getD []
         else [((s.get (joinDot idParts)).getD []).head!])
      else if 0 < idParts.dropLast.length ∧ joinDot idParts ≠ tlk then
        getFromPathIndexGo s tlk idParts.dropLast false
      else [] := by
  rw [getFromPathIndexGo]

/-- One step of the loop along the prefixes of a well-formed segment
list: a non-empty hit returns, otherwise the loop recurses to the next
shorter prefix exactly while the prefix is longer than the top-level
one. -/
theorem getFromPathIndexGo_step (s : Store) (P : List String) (t : Nat)
    (ht0 : 0 < t) (hseg : ∀ x ∈ P, x ≠ "")
    {j : Nat} (hjt : t ≤ j) (hjn : j ≤ P.length) (ex : Bool) :
    getFromPathIndexGo s (joinDot (P.take t)) (P.take j) ex =
      if ((s.get (joinDot (P.take j))).getD []).length > 0 then
        (if ex then (s.get (joinDot (P.take j))).getD []
         else [((s.get (joinDot (P.take j))).getD []).head!])
      else if t < j then
        getFromPathIndexGo s (joinDot (P.take t)) (P.take (j - 1)) false
      else [] := by
  have hdl : (P.take j).dropLast = P.take (j - 1) := by
    rw [List.dropLast_eq_take, List.length_take, List.take_take]
    congr 1
    omega
  rw [getFromPathIndexGo_eq]
  by_cases hh : ((s.get (joinDot (P.take j))).getD []).length > 0
  · rw [if_pos hh, if_pos hh]
  · rw [if_neg hh, if_neg hh]
    have hcond : (0 < (P.take j).dropLast.length ∧
        joinDot (P.take j) ≠ joinDot (P.take t)) ↔ t < j := by
      rw [hdl]
      constructor
      · rintro ⟨_, hne⟩
        rcases Nat.lt_or_ge t j with h | h
        · exact h
        · exact absurd ((joinDot_take_eq_iff P t hseg hjt hjn).mpr (by omega)) hne
      · intro htj
        refine ⟨?_, ?_⟩
        · rw [List.length_take]
          omega
        · intro heq
          have := (joinDot_take_eq_iff P t hseg hjt hjn).mp heq
          omega
    by_cases htj : t < j
    · rw [if_pos (hcond.mpr htj), if_pos htj, hdl]
    · rw [if_neg (fun hc => htj (hcond.mp hc)), if_neg htj]

/-- If every prefix key from the top-level one upward is absent or empty,
the loop returns the empty result. -/
theorem getFromPathIndexGo_all_miss (s : Store) (P : List String) (t : Nat)
    (ht0 : 0 < t) (hseg : ∀ x ∈ P, x ≠ "")
    (hmiss : ∀ i, t ≤ i → i ≤ P.length → (s.get (joinDot (P.take i))).getD [] = []) :
    ∀ d ex, t + d ≤ P.length →
      getFromPathIndexGo s (joinDot (P.take t)) (P.take (t + d)) ex = [] := by
  intro d
  induction d with
  | zero =>
    intro ex h
    rw [getFromPathIndexGo_step s P t ht0 hseg (by omega) (by omega)]
    simp only [Nat.add_zero]
    rw [hmiss t le_rfl (by omega)]
    simp
  | succ m ih =>
    intro ex h
    rw [getFromPathIndexGo_step s P t ht0 hseg (by omega) (by omega)]
    rw [hmiss (t + (m + 1)) (by omega) (by omega)]
    have hidx : t + (m + 1) - 1 = t + m := by omega
    simp only [List.length_nil, gt_iff_lt, Nat.lt_irrefl, if_false]
    rw [if_pos (by omega), hidx]
    exact ih false (by omega)

/-- If the key of some prefix no shorter than the top-level one holds a
non-empty recorded list, the loop returns a non-empty result. -/
theorem getFromPathIndexGo_hit_nonempty (s : Store) (P : List String) (t : Nat)
    (ht0 : 0 < t) (hseg : ∀ x ∈ P, x ≠ "")
    (hhit : (s.get (joinDot (P.take t))).getD [] ≠ []) :
    ∀ d ex, t + d ≤ P.length →
      getFromPathIndexGo s (joinDot (P.take t)) (P.take (t + d)) ex ≠ [] := by
  intro d
  induction d with
  | zero =>
    intro ex h
    rw [getFromPathIndexGo_step s P t ht0 hseg (by omega) (by omega)]
    simp only [Nat.add_zero]
    rw [if_pos (by simpa [List.length_pos] using hhit)]
    cases ex with
    | true => simpa using hhit
    | false => simp
  | succ m ih =>
    intro ex h
    rw [getFromPathIndexGo_step s P t ht0 hseg (by omega) (by omega)]
    by_cases hh : ((s.get (joinDot (P.take (t + (m + 1))))).getD []).length > 0
    · rw [if_pos hh]
      cases ex with
      | true =>
        intro hc
        rw [if_pos (by trivial)] at hc
        rw [hc] at hh
        simp at hh
      | false => simp
    · rw [if_neg hh, if_pos (by omega)]
      have hidx : t + (m + 1) - 1 = t + m := by omega
      rw [hidx]
      exact ih false (by omega)

/-- If the exact key misses (or is empty), every strictly longer prefix
than `j` misses, and the key of prefix `j` holds a non-empty list, the
loop started at the full segment list returns the head of that list. -/
theorem getFromPathIndexGo_ancestor (s : Store) (P : List String) (t : Nat)
    (ht0 : 0 < t) (hseg : ∀ x ∈ P, x ≠ "")
    {j : Nat} (hjt : t ≤ j) (p : Path) (rest : List Path)
    (hhit : (s.get (joinDot (P.take j))).getD [] = p :: rest)
    (hmiss : ∀ i, j < i → i ≤ P.length → (s.get (joinDot (P.take i))).getD [] = []) :
    ∀ d ex, j + d ≤ P.length → (d = 0 → ex = false) →
      getFromPathIndexGo s (joinDot (P.take t)) (P.take (j + d)) ex = [p] := by
  intro d
  induction d with
  | zero =>
    intro ex h hex
    rw [getFromPathIndexGo_step s P t ht0 hseg (by omega) (by omega)]
    rw [hex rfl, Nat.add_zero, hhit]
    simp
  | succ m ih =>
    intro ex h _
    rw [getFromPathIndexGo_step s P t ht0 hseg (by omega) (by omega)]
    rw [hmiss (j + (m + 1)) (by omega) (by omega)]
    have hidx : j + (m + 1) - 1 = j + m := by omega
    simp only [List.length_nil, gt_iff_lt, Nat.lt_irrefl, if_false]
    rw [if_pos (by omega), hidx]
    exact ih false (by omega) (fun _ => rfl)

theorem Store.get_mem {s : Store} {k : String} {v : List Path}
    (h : s.get k = some v) : (k, v) ∈ s := by
  induction s with
  | nil => simp [Store.get] at h
  | cons e rest ih =>
    rcases e with ⟨a, b⟩
    by_cases he : a = k
    · subst he
      simp [Store.get] at h
      subst h
      simp
    · simp only [Store.get, he, if_false] at h
      exact List.mem_cons_of_mem _ (ih h)

/-- A key recorded with an empty list makes the loop behave exactly as if
the key were absent. -/
theorem getFromPathIndexGo_delete_empty (s : Store) (k0 : String)
    (hk : s.get k0 = some []) (tlk : String) :
    ∀ n (idParts : List String), idParts.length ≤ n → ∀ ex,
      getFromPathIndexGo s tlk idParts ex =
        getFromPathIndexGo (s.deleteAll [k0]) tlk idParts ex := by
  intro n
  induction n with
  | zero =>
    intro idParts h ex
    have hnil : idParts = [] := List.eq_nil_of_length_eq_zero (by omega)
    subst hnil
    rw [getFromPathIndexGo_eq s tlk [] ex,
      getFromPathIndexGo_eq (s.deleteAll [k0]) tlk [] ex, Store.get_deleteAll]
    by_cases hkey : joinDot [] ∈ [k0]
    · have hkeq : joinDot [] = k0 := by simpa using hkey
      rw [if_pos hkey, hkeq, hk]
      simp
    · rw [if_neg hkey]
      have hc : ¬ (0 < (List.dropLast ([] : List String)).length ∧
          joinDot [] ≠ tlk) := by simp
      rw [if_neg hc, if_neg hc]
  | succ m ih =>
    intro idParts h ex
    rw [getFromPathIndexGo_eq s tlk idParts ex,
      getFromPathIndexGo_eq (s.deleteAll [k0]) tlk idParts ex, Store.get_deleteAll]
    have hdll : idParts.dropLast.length ≤ m := by
      rw [List.length_dropLast]
      omega
    by_cases hkey : joinDot idParts ∈ [k0]
    · have hkeq : joinDot idParts = k0 := by simpa using hkey
      rw [if_pos hkey, hkeq, hk]
      have h1 : ¬ (((some ([] : List Path)).getD []).length > 0) := by simp
      have h2 : ¬ (((none : Option (List Path)).getD []).length > 0) := by simp
      rw [if_neg h1, if_neg h2]
      by_cases hc : 0 < idParts.dropLast.length ∧ k0 ≠ tlk
      · rw [if_pos hc, if_pos hc]
        exact ih idParts.dropLast hdll false
      · rw [if_neg hc, if_neg hc]
    · rw [if_neg hkey]
      by_cases hlen : ((s.get (joinDot idParts)).getD []).length > 0
      · rw [if_pos hlen, if_pos hlen]
      · rw [if_neg hlen, if_neg hlen]
        by_cases hc : 0 < idParts.dropLast.length ∧ joinDot idParts ≠ tlk
        · rw [if_pos hc, if_pos hc]
          exact ih idParts.dropLast hdll false
        · rw [if_neg hc, if_neg hc]

/-- C1: for every store satisfying the PathIndex non-emptiness invariant
and every well-formed id, `getFromPathIndex` returns the complete recorded
list on an exact hit, exactly the first recorded path on the first
ancestor hit reached by truncating one trailing segment at a time down to
and including the top-level-parent key, and the empty list when no key up
to the top-level parent is present. -/
theorem getFromPathIndex_resolution (e : ElemID) (s : Store)
    (ht0 : 0 < e.topLen) (htn : e.topLen ≤ e.parts.length)
    (hseg : ∀ x ∈ e.parts, x ≠ "")
    (hinv : ∀ en ∈ s, en.2 ≠ []) :
    (∀ ps, s.get (joinDot e.parts) = some ps → getFromPathIndex e s = ps) ∧
    (∀ j p rest, e.topLen ≤ j → j < e.parts.length →
      s.get (joinDot (e.parts.take j)) = some (p :: rest) →
      (∀ i, j < i → i ≤ e.parts.length →
        s.get (joinDot (e.parts.take i)) = none) →
      getFromPathIndex e s = [p]) ∧
    ((∀ i, e.topLen ≤ i → i ≤ e.parts.length →
        s.get (joinDot (e.parts.take i)) = none) →
      getFromPathIndex e s = []) := by
  refine ⟨?_, ?_, ?_⟩
  · intro ps hexact
    have hne : ps ≠ [] := by
      have := hinv _ (Store.get_mem hexact)
      simpa using this
    show getFromPathIndexGo s (joinDot (e.parts.take e.topLen)) e.parts true = ps
    have hstep := getFromPathIndexGo_step s e.parts e.topLen ht0 hseg htn le_rfl true
    rw [List.take_length] at hstep
    rw [hstep, hexact]
    simp [List.length_pos, hne]
  · intro j p rest hjt hjn hhit hmiss
    show getFromPathIndexGo s (joinDot (e.parts.take e.topLen)) e.parts true = [p]
    have hanc := getFromPathIndexGo_ancestor s e.parts e.topLen ht0 hseg hjt
      p rest (by rw [hhit]; rfl)
      (fun i hji hin => by rw [hmiss i hji hin]; rfl)
      (e.parts.length - j) true (by omega) (by intro h0; omega)
    have heq : j + (e.parts.length - j) = e.parts.length := by omega
    rw [heq, List.take_length] at hanc
    exact hanc
  · intro hmiss
    show getFromPathIndexGo s (joinDot (e.parts.take e.topLen)) e.parts true = []
    have hall := getFromPathIndexGo_all_miss s e.parts e.topLen ht0 hseg
      (fun i hit hin => by rw [hmiss i hit hin]; rfl)
      (e.parts.length - e.topLen) true (by omega)
    have heq : e.topLen + (e.parts.length - e.topLen) = e.parts.length := by omega
    rw [heq, List.take_length] at hall
    exact hall

/-- C1 witness: a concrete ancestor-hit resolution. -/
theorem getFromPathIndex_resolution_witness :
    (0 < (ElemID.mk ["salesforce", "obj", "attr", "x"] 2).topLen) ∧
    ((Store.get [("salesforce.obj", [["dir", "file"]])]
        (joinDot (["salesforce", "obj", "attr", "x"].take 2))) =
      some [["dir", "file"]]) ∧
    getFromPathIndex (ElemID.mk ["salesforce", "obj", "attr", "x"] 2)
      [("salesforce.obj", [["dir", "file"]])] = [["dir", "file"]] := by
  refine ⟨by decide, by decide, ?_⟩
  exact (getFromPathIndex_resolution
    (ElemID.mk ["salesforce", "obj", "attr", "x"] 2)
    [("salesforce.obj", [["dir", "file"]])]
    (by decide) (by decide) (by decide) (by decide)).2.1
    2 ["dir", "file"] [] (by decide) (by decide) (by decide)
    (fun i h2 h4 => by
      have h4c : i ≤ 4 := by simpa using h4
      interval_cases i <;> decide)

/-- C10: a key recorded with an empty path list is treated by
`getFromPathIndex` exactly as if the key were absent from the store:
the lookup result is unchanged by deleting that key. -/
theorem getFromPathIndex_empty_entry_as_absent (e : ElemID) (s : Store)
    (k0 : String) (hk : s.get k0 = some []) :
    getFromPathIndex e s = getFromPathIndex e (s.deleteAll [k0]) := by
  show getFromPathIndexGo s e.topLevelParentKey e.parts true = _
  exact getFromPathIndexGo_delete_empty s k0 hk e.topLevelParentKey
    e.parts.length e.parts le_rfl true

/-- C10 witness: an exact match on a key holding an empty list falls
through to the ancestor hint rather than returning the empty list. -/
theorem getFromPathIndex_empty_entry_as_absent_witness :
    (Store.get [("a.b.attr.x", []), ("a.b", [["f1"]])] "a.b.attr.x" = some []) ∧
    getFromPathIndex (ElemID.mk ["a", "b", "attr", "x"] 2)
        [("a.b.attr.x", []), ("a.b", [["f1"]])] =
      getFromPathIndex (ElemID.mk ["a", "b", "attr", "x"] 2)
        (Store.deleteAll [("a.b.attr.x", []), ("a.b", [["f1"]])] ["a.b.attr.x"]) := by
  exact ⟨by decide,
    getFromPathIndex_empty_entry_as_absent
      (ElemID.mk ["a", "b", "attr", "x"] 2)
      [("a.b.attr.x", []), ("a.b", [["f1"]])] "a.b.attr.x" (by decide)⟩

/-! Shape of the keys and values produced by the hint computer. -/

theorem getValuePathHints_key_shape :
    ∀ (fragments : List (Fragment Value)) (elemID : ElemID),
      ∀ h ∈ getValuePathHints fragments elemID,
        ∃ ext, h.key = joinDot (elemID.parts ++ ext) := by
  intro fragments elemID
  induction fragments, elemID using getValuePathHints.induct with
  | case1 fragments elemID hlen =>
    intro h hmem
    rw [getValuePathHints, if_pos hlen] at hmem
    simp only [List.mem_singleton] at hmem
    subst hmem
    exact ⟨[], by simp [ElemID.getFullName]⟩
  | case2 fragments elemID hlen hall ih =>
    intro h hmem
    rw [getValuePathHints, if_neg hlen, if_pos hall] at hmem
    rw [List.mem_flatMap] at hmem
    obtain ⟨kh, hkh, hmem2⟩ := hmem
    obtain ⟨ext, hext⟩ := ih kh h hmem2
    refine ⟨kh.1 :: ext, ?_⟩
    rw [hext]
    simp [ElemID.createNestedID]
  | case3 fragments elemID hlen hall =>
    intro h hmem
    rw [getValuePathHints, if_neg hlen, if_neg hall] at hmem
    simp at hmem

theorem getValuePathHints_value :
    ∀ (fragments : List (Fragment Value)) (elemID : ElemID),
      ∀ h ∈ getValuePathHints fragments elemID,
        h.value ≠ [] ∧ h.value.Sublist (fragments.map (fun f => f.path)) := by
  intro fragments elemID
  induction fragments, elemID using getValuePathHints.induct with
  | case1 fragments elemID hlen =>
    intro h hmem
    obtain ⟨f, rfl⟩ := List.length_eq_one.mp hlen
    rw [getValuePathHints, if_pos hlen] at hmem
    simp only [List.mem_singleton] at hmem
    subst hmem
    simp
  | case2 fragments elemID hlen hall ih =>
    intro h hmem
    rw [getValuePathHints, if_neg hlen, if_pos hall] at hmem
    rw [List.mem_flatMap] at hmem
    obtain ⟨kh, hkh, hmem2⟩ := hmem
    obtain ⟨hne, hsub⟩ := ih kh h hmem2
    refine ⟨hne, hsub.trans ?_⟩
    have hmm : (((fragments.filter
        (fun f => (f.value.objGet kh.1).isDefined)).map
          (fun f => Fragment.mk (f.value.objGet kh.1) f.path)).map
            (fun f => f.path)) =
        (fragments.filter (fun f => (f.value.objGet kh.1).isDefined)).map
          (fun f => f.path) := by
      simp [List.map_map, Function.comp]
    rw [hmm]
    exact (List.filter_sublist fragments).map (fun f => f.path)
  | case3 fragments elemID hlen hall =>
    intro h hmem
    rw [getValuePathHints, if_neg hlen, if_neg hall] at hmem
    simp at hmem

theorem head!_mem {α : Type} [Inhabited α] {l : List α} (h : l ≠ []) :
    l.head! ∈ l := by
  cases l with
  | nil => exact absurd rfl h
  | cons a rest => simp

theorem getAnnotationTypesPathHints_value (fragments : List (Fragment Element)) :
    ∀ h ∈ getAnnotationTypesPathHints fragments,
      h.value ≠ [] ∧ h.value.Sublist (fragments.map (fun f => f.path)) := by
  intro h hmem
  rw [getAnnotationTypesPathHints] at hmem
  set fwn := fragments.filter (fun f => !f.value.annotationRefTypes.isEmpty) with hfwn
  by_cases hlen : fwn.length = 1
  · rw [if_pos hlen] at hmem
    simp only [List.mem_singleton] at hmem
    subst hmem
    have hfne : fwn ≠ [] := by
      intro hc
      rw [hc] at hlen
      simp at hlen
    refine ⟨by simp, ?_⟩
    rw [List.singleton_sublist, List.mem_map]
    refine ⟨fwn.head!, ?_, rfl⟩
    exact (List.filter_sublist fragments).subset (head!_mem hfne)
  · rw [if_neg hlen] at hmem
    rw [List.mem_flatMap] at hmem
    obtain ⟨f, hf, hmem2⟩ := hmem
    rw [List.mem_map] at hmem2
    obtain ⟨ak, _, hh⟩ := hmem2
    subst hh
    refine ⟨by simp, ?_⟩
    rw [List.singleton_sublist, List.mem_map]
    exact ⟨f, (List.filter_sublist fragments).subset hf, rfl⟩

theorem getAnnotationPathHints_value (fragments : List (Fragment Element)) :
    ∀ h ∈ getAnnotationPathHints fragments,
      h.value ≠ [] ∧ h.value.Sublist (fragments.map (fun f => f.path)) := by
  intro h hmem
  rw [getAnnotationPathHints] at hmem
  obtain ⟨hne, hsub⟩ := getValuePathHints_value _ _ h hmem
  refine ⟨hne, hsub.trans ?_⟩
  rw [List.map_map]
  have hco : ((fun f => Fragment.path f) ∘ fun (f : Fragment Element) =>
      Fragment.mk (Value.map f.value.annotations) f.path) =
      fun (f : Fragment Element) => f.path := rfl
  rw [hco]

theorem getFieldPathHints_value (fragments : List (Fragment Field)) :
    ∀ h ∈ getFieldPathHints fragments,
      h.value ≠ [] ∧ h.value.Sublist (fragments.map (fun f => f.path)) := by
  intro h hmem
  rw [getFieldPathHints] at hmem
  by_cases h0 : fragments.length = 0
  · rw [if_pos h0] at hmem
    simp at hmem
  · rw [if_neg h0] at hmem
    by_cases h1 : fragments.length = 1
    · rw [if_pos h1] at hmem
      obtain ⟨f, rfl⟩ := List.length_eq_one.mp h1
      simp only [List.mem_singleton] at hmem
      subst hmem
      simp
    · rw [if_neg h1] at hmem
      rw [List.mem_append] at hmem
      rcases hmem with hmem | hmem
      · obtain ⟨hne, hsub⟩ := getValuePathHints_value _ _ h hmem
        refine ⟨hne, hsub.trans ?_⟩
        rw [List.map_map]
        have hco : ((fun f => Fragment.path f) ∘ fun (f : Fragment Field) =>
            Fragment.mk (Value.map f.value.annotations) f.path) =
            fun (f : Fragment Field) => f.path := rfl
        rw [hco]
      · simp only [List.mem_singleton] at hmem
        subst hmem
        refine ⟨?_, List.Sublist.refl _⟩
        simp only [ne_eq, List.map_eq_nil_iff]
        intro hc
        rw [hc] at h0
        simp at h0

theorem getFieldsPathHints_value (fragments : List (Fragment Element)) :
    ∀ h ∈ getFieldsPathHints fragments,
      h.value ≠ [] ∧ h.value.Sublist (fragments.map (fun f => f.path)) := by
  intro h hmem
  rw [getFieldsPathHints] at hmem
  set fws := fragments.filter (fun f => !f.value.fields.isEmpty) with hfws
  by_cases hlen : fws.length = 1
  · rw [if_pos hlen] at hmem
    simp only [List.mem_singleton] at hmem
    subst hmem
    have hfne : fws ≠ [] := by
      intro hc
      rw [hc] at hlen
      simp at hlen
    refine ⟨by simp, ?_⟩
    rw [List.singleton_sublist, List.mem_map]
    refine ⟨fws.head!, ?_, rfl⟩
    exact (List.filter_sublist fragments).subset (head!_mem hfne)
  · rw [if_neg hlen] at hmem
    rw [List.mem_flatMap] at hmem
    obtain ⟨fieldName, _, hmem2⟩ := hmem
    obtain ⟨hne, hsub⟩ := getFieldPathHints_value _ h hmem2
    refine ⟨hne, hsub.trans ?_⟩
    rw [List.map_map]
    have : ((fun f => Fragment.path f) ∘ fun f =>
        Fragment.mk ((fieldsGet f.value.fields fieldName).getD default) f.path) =
        fun (f : Fragment Element) => f.path := rfl
    rw [this]
    exact (List.filter_sublist fragments).map (fun f => f.path)

theorem getElementPathHints_value (fragments : List (Fragment Element)) :
    ∀ h ∈ getElementPathHints fragments,
      h.value ≠ [] ∧ h.value.Sublist (fragments.map (fun f => f.path)) := by
  intro h hmem
  rw [getElementPathHints] at hmem
  by_cases h0 : fragments.length = 0
  · rw [if_pos h0] at hmem
    simp at hmem
  · rw [if_neg h0] at hmem
    by_cases h1 : fragments.length = 1
    · rw [if_pos h1] at hmem
      obtain ⟨f, rfl⟩ := List.length_eq_one.mp h1
      simp only [List.mem_singleton] at hmem
      subst hmem
      simp
    · rw [if_neg h1] at hmem
      simp only [List.append_assoc, List.mem_append] at hmem
      rcases hmem with hmem | hmem | hmem | hmem | hmem
      · exact getAnnotationTypesPathHints_value fragments h hmem
      · exact getAnnotationPathHints_value fragments h hmem
      · by_cases hobj : fragments.all (fun f => isObjectType f.value)
        · rw [if_pos hobj] at hmem
          exact getFieldsPathHints_value fragments h hmem
        · rw [if_neg hobj] at hmem
          simp at hmem
      · by_cases hinst : fragments.all (fun f => isInstanceElement f.value)
        · rw [if_pos hinst] at hmem
          obtain ⟨hne, hsub⟩ := getValuePathHints_value _ _ h hmem
          refine ⟨hne, hsub.trans ?_⟩
          rw [List.map_map]
          have hco : ((fun f => Fragment.path f) ∘ fun (f : Fragment Element) =>
              Fragment.mk (Value.map f.value.instValue) f.path) =
              fun (f : Fragment Element) => f.path := rfl
          rw [hco]
        · rw [if_neg hinst] at hmem
          simp at hmem
      · simp only [List.mem_singleton] at hmem
        subst hmem
        refine ⟨?_, List.Sublist.refl _⟩
        simp only [ne_eq, List.map_eq_nil_iff]
        intro hc
        rw [hc] at h0
        simp at h0

theorem groupByKey_mem {α : Type} {key : α → String} {l : List α}
    {g : String × List α} (h : g ∈ groupByKey key l) :
    g.2 = l.filter (fun a => key a == g.1) ∧ g.1 ∈ l.map key := by
  rw [groupByKey, List.mem_map] at h
  obtain ⟨k, hk, rfl⟩ := h
  exact ⟨rfl, mem_of_mem_uniq hk⟩

theorem getElementsPathHints_value (elems : List Element) :
    ∀ h ∈ getElementsPathHints elems,
      h.value ≠ [] ∧ h.value.Sublist
        ((elems.filter (fun e => e.path.isSome)).map (fun e => e.path.getD [])) := by
  intro h hmem
  rw [getElementsPathHints, List.mem_flatMap] at hmem
  obtain ⟨g, hg, hmem2⟩ := hmem
  obtain ⟨hne, hsub⟩ := getElementPathHints_value _ h hmem2
  refine ⟨hne, hsub.trans ?_⟩
  rw [List.map_map]
  have hco : ((fun f => Fragment.path f) ∘ fun (e : Element) =>
      Fragment.mk e (e.path.getD [])) = fun (e : Element) => e.path.getD [] := rfl
  rw [hco]
  obtain ⟨hg2, _⟩ := groupByKey_mem hg
  rw [hg2]
  refine List.Sublist.map _ ?_
  rw [List.filter_comm]
  exact List.filter_sublist _

theorem getTopLevelPathHints_value (elems : List Element) :
    ∀ h ∈ getTopLevelPathHints elems,
      h.value ≠ [] ∧ h.value.Sublist
        ((elems.filter (fun e => e.path.isSome)).map (fun e => e.path.getD [])) := by
  intro h hmem
  rw [getTopLevelPathHints, List.mem_map] at hmem
  obtain ⟨g, hg, rfl⟩ := hmem
  obtain ⟨hg2, hgk⟩ := groupByKey_mem hg
  constructor
  · rw [List.mem_map] at hgk
    obtain ⟨e, he, hke⟩ := hgk
    have hmem3 : e ∈ g.2 := by
      rw [hg2]
      exact List.mem_filter.mpr ⟨he, by simp [hke]⟩
    simp only [ne_eq, List.map_eq_nil_iff]
    intro hc
    rw [hc] at hmem3
    cases hmem3
  · rw [hg2]
    exact List.Sublist.map _ (List.filter_sublist _)

/-- C9: every index entry produced by `getElementsPathHints` and by
`getTopLevelPathHints` has a non-empty path list whose order is a sublist
of the input-order paths of the contributing fragments (first-seen
order); hence every key the updater writes has a non-empty list. -/
theorem index_entries_nonempty_first_seen (elems : List Element) :
    (∀ h ∈ getElementsPathHints elems, h.value ≠ [] ∧ h.value.Sublist
      ((elems.filter (fun e => e.path.isSome)).map (fun e => e.path.getD []))) ∧
    (∀ h ∈ getTopLevelPathHints elems, h.value ≠ [] ∧ h.value.Sublist
      ((elems.filter (fun e => e.path.isSome)).map (fun e => e.path.getD []))) ∧
    (∀ k v, entriesGet (getElementsPathHints elems) k = some v → v ≠ []) ∧
    (∀ k v, entriesGet (getTopLevelPathHints elems) k = some v → v ≠ []) := by
  refine ⟨getElementsPathHints_value elems, getTopLevelPathHints_value elems, ?_, ?_⟩
  · intro k v hv
    obtain ⟨e, he, _, hveq⟩ := entriesGet_eq_some_value hv
    exact hveq ▸ (getElementsPathHints_value elems e he).1
  · intro k v hv
    obtain ⟨e, he, _, hveq⟩ := entriesGet_eq_some_value hv
    exact hveq ▸ (getTopLevelPathHints_value elems e he).1

theorem uniqAux_eq_nil_of_subset {seen l : List String}
    (h : ∀ x ∈ l, x ∈ seen) : uniqAux seen l = [] := by
  induction l generalizing seen with
  | nil => rfl
  | cons a rest ih =>
    have ha : a ∈ seen := h a (by simp)
    simp only [uniqAux, if_pos ha]
    exact ih (fun x hx => h x (by simp [hx]))

theorem uniq_const {l : List String} {c : String} (hne : l ≠ [])
    (hall : ∀ x ∈ l, x = c) : uniq l = [c] := by
  cases l with
  | nil => exact absurd rfl hne
  | cons a rest =>
    have ha : a = c := hall a (by simp)
    subst ha
    show uniqAux [] (a :: rest) = [a]
    rw [uniqAux, if_neg (by simp)]
    rw [uniqAux_eq_nil_of_subset (fun x hx => by
      simp [hall x (by simp [hx])])]

theorem getElementPathHints_catch_all (fragments : List (Fragment Element))
    (id : ElemID) (hne : fragments ≠ [])
    (hid : ∀ f ∈ fragments, f.value.elemID = id) :
    PathHint.mk id.getFullName (fragments.map (fun f => f.path)) ∈
      getElementPathHints fragments := by
  rw [getElementPathHints]
  have h0 : ¬ fragments.length = 0 := by simp [hne]
  rw [if_neg h0]
  by_cases h1 : fragments.length = 1
  · rw [if_pos h1]
    obtain ⟨f, rfl⟩ := List.length_eq_one.mp h1
    have hf : f.value.elemID = id := hid f (by simp)
    simp [hf]
  · rw [if_neg h1]
    have hf : fragments.head!.value.elemID = id := hid _ (head!_mem hne)
    simp [hf]

/-- C2: fragments sharing one element id always produce the catch-all
hint keyed at that id listing all fragment paths in input order, and
after indexing them, lookups on that id or any descendant id return a
non-empty result. -/
theorem catch_all_and_coverage (elems : List Element) (id d : ElemID)
    (ext : List String) (s0 : Store) (tlp : String → String)
    (hne : elems ≠ [])
    (hid : ∀ e ∈ elems, e.elemID = id)
    (hpath : ∀ e ∈ elems, e.path.isSome)
    (hd : d.parts = id.parts ++ ext)
    (hdt : d.topLen = id.parts.length)
    (hng : id.parts ≠ [])
    (hseg : ∀ x ∈ d.parts, x ≠ "") :
    PathHint.mk id.getFullName (elems.map (fun e => e.path.getD []))
        ∈ getElementsPathHints elems ∧
    getFromPathIndex d (updateIndex tlp s0 elems none getElementsPathHints)
      ≠ [] := by
  have hkeys : ∀ e ∈ elems, e.elemID.getFullName = id.getFullName :=
    fun e he => by rw [hid e he]
  have hgroup : groupByKey (fun e => e.elemID.getFullName) elems =
      [(id.getFullName, elems)] := by
    rw [groupByKey]
    have huniq : uniq (elems.map (fun e => e.elemID.getFullName)) =
        [id.getFullName] := by
      apply uniq_const
      · simp [hne]
      · intro x hx
        rw [List.mem_map] at hx
        obtain ⟨e, he, rfl⟩ := hx
        exact hkeys e he
    rw [huniq]
    simp only [List.map_cons, List.map_nil]
    have hfe : elems.filter (fun e => e.elemID.getFullName == id.getFullName) =
        elems :=
      List.filter_eq_self.mpr (fun e he => by simp [hkeys e he])
    rw [hfe]
  have hhints : getElementsPathHints elems =
      getElementPathHints (elems.map (fun e => Fragment.mk e (e.path.getD []))) := by
    rw [getElementsPathHints, hgroup]
    rw [List.flatMap_cons, List.flatMap_nil, List.append_nil]
    rw [List.filter_eq_self.mpr hpath]
  have hmm : PathHint.mk id.getFullName (elems.map (fun e => e.path.getD []))
      ∈ getElementsPathHints elems := by
    rw [hhints]
    have hcatch := getElementPathHints_catch_all
      (elems.map (fun e => Fragment.mk e (e.path.getD []))) id
      (by simp [hne])
      (fun f hf => by
        rw [List.mem_map] at hf
        obtain ⟨e, he, rfl⟩ := hf
        exact hid e he)
    have hpaths : (elems.map (fun e => Fragment.mk e (e.path.getD []))).map
        (fun f => f.path) = elems.map (fun e => e.path.getD []) := by
      rw [List.map_map]
      rfl
    rw [hpaths] at hcatch
    exact hcatch
  refine ⟨hmm, ?_⟩
  obtain ⟨v, hv⟩ := entriesGet_isSome_of_mem hmm
  have hvne : v ≠ [] := by
    obtain ⟨e2, he2, _, hveq⟩ := entriesGet_eq_some_value hv
    exact hveq ▸ (getElementsPathHints_value elems e2 he2).1
  have hgetchar := (updateIndex_get tlp s0 elems getElementsPathHints
    id.getFullName).1
  have hopt : ∀ (x : Option (List Path)),
      (match x with | some w => some w | none => none) = x := by
    intro x
    cases x <;> rfl
  rw [hopt] at hgetchar
  have htake : d.parts.take d.topLen = id.parts := by
    rw [hd, hdt, List.take_left]
  have hjoin : joinDot (d.parts.take d.topLen) = id.getFullName := by
    rw [htake]
    rfl
  have hhit : (((updateIndex tlp s0 elems none getElementsPathHints).get
      (joinDot (d.parts.take d.topLen))).getD []) ≠ [] := by
    rw [hjoin, hgetchar, hv]
    simpa using hvne
  have ht0 : 0 < d.topLen := by
    rw [hdt]
    exact List.length_pos.mpr hng
  have htn : d.topLen ≤ d.parts.length := by
    rw [hd, hdt]
    simp
  have hfin := getFromPathIndexGo_hit_nonempty
    (updateIndex tlp s0 elems none getElementsPathHints) d.parts d.topLen
    ht0 hseg hhit (d.parts.length - d.topLen) true (by omega)
  rw [show d.topLen + (d.parts.length - d.topLen) = d.parts.length by omega,
    List.take_length] at hfin
  exact hfin

/-! Every hint key is a nested extension of some contributing fragment's
element id. -/

theorem fieldsGet_some_mem {fs : List (String × Field)} {n : String} {fld : Field}
    (h : fieldsGet fs n = some fld) : ∃ p ∈ fs, p.2 = fld := by
  rw [fieldsGet] at h
  cases hf : fs.find? (fun p => p.1 = n) with
  | none => rw [hf] at h; cases h
  | some p =>
    rw [hf] at h
    exact ⟨p, List.mem_of_find?_eq_some hf, by injection h⟩

theorem getAnnotationTypesPathHints_key (fragments : List (Fragment Element)) :
    ∀ h ∈ getAnnotationTypesPathHints fragments,
      ∃ f ∈ fragments, ∃ ext, h.key = joinDot (f.value.elemID.parts ++ ext) := by
  intro h hmem
  rw [getAnnotationTypesPathHints] at hmem
  set fwn := fragments.filter (fun f => !f.value.annotationRefTypes.isEmpty)
    with hfwn
  by_cases hlen : fwn.length = 1
  · rw [if_pos hlen] at hmem
    simp only [List.mem_singleton] at hmem
    subst hmem
    have hfne : fwn ≠ [] := by
      intro hc
      rw [hc] at hlen
      simp at hlen
    refine ⟨fwn.head!, (List.filter_sublist fragments).subset (head!_mem hfne),
      ["annotation"], ?_⟩
    simp [ElemID.createNestedID, ElemID.getFullName]
  · rw [if_neg hlen] at hmem
    rw [List.mem_flatMap] at hmem
    obtain ⟨f, hf, hmem2⟩ := hmem
    rw [List.mem_map] at hmem2
    obtain ⟨ak, _, heq⟩ := hmem2
    subst heq
    refine ⟨f, (List.filter_sublist fragments).subset hf,
      ["annotation", ak], ?_⟩
    simp [ElemID.createNestedID, ElemID.getFullName]

theorem getFieldPathHints_key (gs : List (Fragment Field)) :
    ∀ h ∈ getFieldPathHints gs,
      ∃ g ∈ gs, ∃ ext, h.key = joinDot (g.value.elemID.parts ++ ext) := by
  intro h hmem
  rw [getFieldPathHints] at hmem
  by_cases h0 : gs.length = 0
  · rw [if_pos h0] at hmem
    simp at hmem
  · rw [if_neg h0] at hmem
    have hgne : gs ≠ [] := by
      intro hc
      rw [hc] at h0
      simp at h0
    by_cases h1 : gs.length = 1
    · rw [if_pos h1] at hmem
      simp only [List.mem_singleton] at hmem
      subst hmem
      exact ⟨gs.head!, head!_mem hgne, [], by simp [ElemID.getFullName]⟩
    · rw [if_neg h1] at hmem
      rw [List.mem_append] at hmem
      rcases hmem with hmem | hmem
      · obtain ⟨ext, hkey⟩ := getValuePathHints_key_shape _ _ h hmem
        exact ⟨gs.head!, head!_mem hgne, ext, hkey⟩
      · simp only [List.mem_singleton] at hmem
        subst hmem
        exact ⟨gs.head!, head!_mem hgne, [], by simp [ElemID.getFullName]⟩

theorem getFieldsPathHints_key (fragments : List (Fragment Element))
    (hwf : ∀ f ∈ fragments, ∀ p ∈ (f.value).fields, ∃ fext,
      p.2.elemID.parts = f.value.elemID.parts ++ fext) :
    ∀ h ∈ getFieldsPathHints fragments,
      ∃ f ∈ fragments, ∃ ext, h.key = joinDot (f.value.elemID.parts ++ ext) := by
  intro h hmem
  rw [getFieldsPathHints] at hmem
  set fws := fragments.filter (fun f => !f.value.fields.isEmpty) with hfws
  by_cases hlen : fws.length = 1
  · rw [if_pos hlen] at hmem
    simp only [List.mem_singleton] at hmem
    subst hmem
    have hfne : fws ≠ [] := by
      intro hc
      rw [hc] at hlen
      simp at hlen
    refine ⟨fws.head!, (List.filter_sublist fragments).subset (head!_mem hfne),
      ["field"], ?_⟩
    simp [ElemID.createNestedID, ElemID.getFullName]
  · rw [if_neg hlen] at hmem
    rw [List.mem_flatMap] at hmem
    obtain ⟨fieldName, _, hmem2⟩ := hmem
    obtain ⟨g, hg, ext, hkey⟩ := getFieldPathHints_key _ h hmem2
    rw [List.mem_map] at hg
    obtain ⟨f, hf, heq⟩ := hg
    obtain ⟨hfmem, hfdef⟩ := List.mem_filter.mp hf
    rw [Option.isSome_iff_exists] at hfdef
    obtain ⟨fld, hfld⟩ := by
      simpa using hfdef
    obtain ⟨p, hp, hpfld⟩ := fieldsGet_some_mem hfld
    obtain ⟨fext, hfext⟩ := hwf f hfmem p hp
    refine ⟨f, hfmem, fext ++ ext, ?_⟩
    rw [hkey, ← heq]
    simp only [hfld, Option.getD_some]
    rw [hpfld] at hfext
    rw [hfext, List.append_assoc]

theorem getElementPathHints_key (fragments : List (Fragment Element))
    (hwf : ∀ f ∈ fragments, ∀ p ∈ (f.value).fields, ∃ fext,
      p.2.elemID.parts = f.value.elemID.parts ++ fext) :
    ∀ h ∈ getElementPathHints fragments,
      ∃ f ∈ fragments, ∃ ext, h.key = joinDot (f.value.elemID.parts ++ ext) := by
  intro h hmem
  rw [getElementPathHints] at hmem
  by_cases h0 : fragments.length = 0
  · rw [if_pos h0] at hmem
    simp at hmem
  · rw [if_neg h0] at hmem
    have hfne : fragments ≠ [] := by
      intro hc
      rw [hc] at h0
      simp at h0
    by_cases h1 : fragments.length = 1
    · rw [if_pos h1] at hmem
      simp only [List.mem_singleton] at hmem
      subst hmem
      exact ⟨fragments.head!, head!_mem hfne, [], by simp [ElemID.getFullName]⟩
    · rw [if_neg h1] at hmem
      simp only [List.append_assoc, List.mem_append] at hmem
      rcases hmem with hmem | hmem | hmem | hmem | hmem
      · exact getAnnotationTypesPathHints_key fragments h hmem
      · rw [getAnnotationPathHints] at hmem
        obtain ⟨ext, hkey⟩ := getValuePathHints_key_shape _ _ h hmem
        by_cases hinst : isInstanceElement (fragments.head!).value
        · rw [if_pos hinst] at hkey
          exact ⟨fragments.head!, head!_mem hfne, ext, hkey⟩
        · rw [if_neg hinst] at hkey
          refine ⟨fragments.head!, head!_mem hfne, "attr" :: ext, ?_⟩
          rw [hkey]
          simp [ElemID.createNestedID]
      · by_cases hobj : fragments.all (fun f => isObjectType f.value)
        · rw [if_pos hobj] at hmem
          exact getFieldsPathHints_key fragments hwf h hmem
        · rw [if_neg hobj] at hmem
          simp at hmem
      · by_cases hinst : fragments.all (fun f => isInstanceElement f.value)
        · rw [if_pos hinst] at hmem
          obtain ⟨ext, hkey⟩ := getValuePathHints_key_shape _ _ h hmem
          exact ⟨fragments.head!, head!_mem hfne, ext, hkey⟩
        · rw [if_neg hinst] at hmem
          simp at hmem
      · simp only [List.mem_singleton] at hmem
        subst hmem
        exact ⟨fragments.head!, head!_mem hfne, [], by simp [ElemID.getFullName]⟩

theorem getElementsPathHints_key (elems : List Element)
    (hwf : ∀ e ∈ elems, ∀ p ∈ Element.fields e, ∃ fext,
      p.2.elemID.parts = e.elemID.parts ++ fext) :
    ∀ h ∈ getElementsPathHints elems,
      ∃ e ∈ elems, ∃ ext, h.key = joinDot (e.elemID.parts ++ ext) := by
  intro h hmem
  rw [getElementsPathHints, List.mem_flatMap] at hmem
  obtain ⟨g, hg, hmem2⟩ := hmem
  obtain ⟨hg2, _⟩ := groupByKey_mem hg
  have hsub : ∀ f ∈ (g.2.filter (fun e => e.path.isSome)).map
      (fun e => Fragment.mk e (e.path.getD [])), f.value ∈ elems := by
    intro f hf
    rw [List.mem_map] at hf
    obtain ⟨e, he, heq⟩ := hf
    have he2 : e ∈ g.2 := (List.mem_filter.mp he).1
    rw [hg2] at he2
    have := (List.mem_filter.mp he2).1
    rw [← heq]
    exact this
  obtain ⟨f, hf, ext, hkey⟩ := getElementPathHints_key _
    (fun f hf p hp => hwf f.value (hsub f hf) p hp) h hmem2
  exact ⟨f.value, hsub f hf, ext, hkey⟩

/-- C5: `updateIndex` with `knownIds` absent clears the store and the
result holds exactly the hints computed on the changed elements; with
`knownIds` present it drops exactly the existing keys whose top-level
parent id is not known, then upserts the computed hints, leaving all
other existing keys untouched. -/
theorem updateIndex_modes (tlp : String → String) (s : Store)
    (changed : List Element) (hintFn : List Element → List PathHint)
    (q : String) :
    ((updateIndex tlp s changed none hintFn).get q =
      entriesGet (hintFn changed) q) ∧
    (∀ ids : List String,
      (updateIndex tlp s changed (some ids) hintFn).get q =
        match entriesGet (hintFn changed) q with
        | some v => some v
        | none => if tlp q ∈ ids then s.get q else none) := by
  have h := updateIndex_get tlp s changed hintFn q
  refine ⟨?_, h.2⟩
  rw [h.1]
  cases entriesGet (hintFn changed) q <;> rfl

/-- C6: `updateIndex` is idempotent — running it twice with the same
arguments leaves the same observable store contents as running it once,
for any store, changed-element list (including the empty one) and
optional known-id set. -/
theorem updateIndex_idempotent (tlp : String → String) (s : Store)
    (changed : List Element) (idsOpt : Option (List String))
    (hintFn : List Element → List PathHint) (q : String) :
    (updateIndex tlp (updateIndex tlp s changed idsOpt hintFn) changed idsOpt
        hintFn).get q =
      (updateIndex tlp s changed idsOpt hintFn).get q := by
  cases idsOpt with
  | none =>
    rw [(updateIndex_get tlp _ changed hintFn q).1,
      (updateIndex_get tlp s changed hintFn q).1]
  | some ids =>
    rw [(updateIndex_get tlp _ changed hintFn q).2 ids,
      (updateIndex_get tlp s changed hintFn q).2 ids]
    cases h : entriesGet (hintFn changed) q with
    | some v => rfl
    | none =>
      simp only
      by_cases htlp : tlp q ∈ ids <;> simp [htlp]

/-- Every key of the top-level hints is some contributing element's own
full id. -/
theorem getTopLevelPathHints_key (elems : List Element) :
    ∀ h ∈ getTopLevelPathHints elems,
      ∃ e ∈ elems, ∃ ext, h.key = joinDot (e.elemID.parts ++ ext) := by
  intro h hmem
  rw [getTopLevelPathHints, List.mem_map] at hmem
  obtain ⟨g, hg, rfl⟩ := hmem
  obtain ⟨_, hgk⟩ := groupByKey_mem hg
  rw [List.mem_map] at hgk
  obtain ⟨e, he, hke⟩ := hgk
  refine ⟨e, (List.mem_filter.mp he).1, [], ?_⟩
  rw [← hke]
  simp [ElemID.getFullName]

/-- Pruning for any hint function whose keys are nested extensions of the
changed elements' ids. -/
theorem updateIndex_pruning_aux (tlp : String → String) (s : Store)
    (changed : List Element) (ids : List String) (q : String)
    (hintFn : List Element → List PathHint)
    (hkeys : ∀ h ∈ hintFn changed, ∃ e ∈ changed, ∃ ext,
      h.key = joinDot (e.elemID.parts ++ ext))
    (htop : ∀ e ∈ changed, tlp e.elemID.getFullName ∈ ids)
    (hnest : ∀ e ∈ changed, ∀ ext : List String,
      tlp (joinDot (e.elemID.parts ++ ext)) = tlp e.elemID.getFullName)
    (hq : (updateIndex tlp s changed (some ids) hintFn).get q ≠ none) :
    tlp q ∈ ids := by
  rw [(updateIndex_get tlp s changed hintFn q).2 ids] at hq
  cases h : entriesGet (hintFn changed) q with
  | some v =>
    obtain ⟨e, he, hek, _⟩ := entriesGet_eq_some_value h
    obtain ⟨el, hel, ext, hkey⟩ := hkeys e he
    rw [← hek, hkey, hnest el hel ext]
    exact htop el hel
  | none =>
    rw [h] at hq
    by_cases htlp : tlp q ∈ ids
    · exact htlp
    · rw [if_neg htlp] at hq
      exact absurd rfl hq

/-- C7: after any call to `updateIndex` with a known-id set — through the
full-recursive hint function or the top-level-only one — when every
changed element's top-level id is known (nested ids sharing their
element's top-level parent, fields being nested under their owning type),
every key remaining in the store has a known top-level parent id. -/
theorem updateIndex_pruning (tlp : String → String) (s : Store)
    (changed : List Element) (ids : List String) (q : String)
    (hwf : ∀ e ∈ changed, ∀ p ∈ Element.fields e, ∃ fext,
      p.2.elemID.parts = e.elemID.parts ++ fext)
    (htop : ∀ e ∈ changed, tlp e.elemID.getFullName ∈ ids)
    (hnest : ∀ e ∈ changed, ∀ ext : List String,
      tlp (joinDot (e.elemID.parts ++ ext)) = tlp e.elemID.getFullName) :
    ((updateIndex tlp s changed (some ids) getElementsPathHints).get q ≠ none →
      tlp q ∈ ids) ∧
    ((updateIndex tlp s changed (some ids) getTopLevelPathHints).get q ≠ none →
      tlp q ∈ ids) := by
  constructor
  · intro hq
    exact updateIndex_pruning_aux tlp s changed ids q getElementsPathHints
      (getElementsPathHints_key changed hwf) htop hnest hq
  · intro hq
    exact updateIndex_pruning_aux tlp s changed ids q getTopLevelPathHints
      (getTopLevelPathHints_key changed) htop hnest hq

/-- C2 witness: one fragment for `a.b`, looked up at the descendant
`a.b.x` after indexing. -/
theorem catch_all_and_coverage_witness :
    ((∀ e ∈ [Element.mk (ElemID.mk ["a", "b"] 2) (some ["f1"]) [] []
        ElementKind.other], e.elemID = ElemID.mk ["a", "b"] 2) ∧
      (ElemID.mk ["a", "b", "x"] 2).parts = (ElemID.mk ["a", "b"] 2).parts ++ ["x"]) ∧
    PathHint.mk (ElemID.mk ["a", "b"] 2).getFullName
        ([Element.mk (ElemID.mk ["a", "b"] 2) (some ["f1"]) [] []
          ElementKind.other].map (fun e => e.path.getD []))
      ∈ getElementsPathHints [Element.mk (ElemID.mk ["a", "b"] 2) (some ["f1"])
          [] [] ElementKind.other] ∧
    getFromPathIndex (ElemID.mk ["a", "b", "x"] 2)
      (updateIndex (fun _ => "") []
        [Element.mk (ElemID.mk ["a", "b"] 2) (some ["f1"]) [] []
          ElementKind.other]
        none getElementsPathHints) ≠ [] := by
  refine ⟨⟨by decide, by decide⟩, ?_⟩
  exact catch_all_and_coverage
    [Element.mk (ElemID.mk ["a", "b"] 2) (some ["f1"]) [] [] ElementKind.other]
    (ElemID.mk ["a", "b"] 2) (ElemID.mk ["a", "b", "x"] 2) ["x"] []
    (fun _ => "") (by simp) (by decide) (by decide) (by decide) (by decide)
    (by decide) (by decide)

/-- C7 witness: pruning with one changed element whose hints land under a
known top-level id, exercised through the full-recursive variant. -/
theorem updateIndex_pruning_witness :
    ((updateIndex (fun _ => "T") [("x", [["p"]])]
        [Element.mk (ElemID.mk ["a", "b"] 2) (some ["f1"]) [] []
          ElementKind.other]
        (some ["T"]) getElementsPathHints).get "a.b" ≠ none) ∧
    ((updateIndex (fun _ => "T") [("x", [["p"]])]
        [Element.mk (ElemID.mk ["a", "b"] 2) (some ["f1"]) [] []
          ElementKind.other]
        (some ["T"]) getTopLevelPathHints).get "a.b" ≠ none) ∧
    (fun _ : String => "T") "a.b" ∈ ["T"] := by
  refine ⟨by decide, by decide, ?_⟩
  exact (updateIndex_pruning (fun _ => "T") [("x", [["p"]])]
    [Element.mk (ElemID.mk ["a", "b"] 2) (some ["f1"]) [] [] ElementKind.other]
    ["T"] "a.b"
    (by
      intro e he p hp
      rw [List.mem_singleton] at he
      subst he
      simp [Element.fields] at hp)
    (by decide) (fun e he ext => rfl)).1 (by decide)

/-- C9 witness: the hint produced for a single-fragment element is
non-empty and in input order. -/
theorem index_entries_nonempty_first_seen_witness :
    PathHint.mk "a.b" [["f1"]] ∈ getElementsPathHints
      [Element.mk (ElemID.mk ["a", "b"] 2) (some ["f1"]) [] []
        ElementKind.other] ∧
    (PathHint.mk "a.b" [["f1"]]).value ≠ [] ∧
    (PathHint.mk "a.b" [["f1"]]).value.Sublist
      (([Element.mk (ElemID.mk ["a", "b"] 2) (some ["f1"]) [] []
          ElementKind.other].filter (fun e => e.path.isSome)).map
        (fun e => e.path.getD [])) :=
  ⟨by decide,
    (index_entries_nonempty_first_seen
      [Element.mk (ElemID.mk ["a", "b"] 2) (some ["f1"]) [] []
        ElementKind.other]).1
      (PathHint.mk "a.b" [["f1"]]) (by decide)⟩

theorem attach_flatMap_eq {α β : Type} (l : List α) (g : α → List β) :
    l.attach.flatMap (fun x => g x.1) = l.flatMap g := by
  conv_rhs => rw [← List.attach_map_subtype_val l, List.flatMap_map]

/-- C3: the three cases of `getValuePathHints` — singleton passthrough,
per-key recursion over the first-seen union of keys when every fragment is
a plain mapping, and no hints in every other case. -/
theorem getValuePathHints_cases (fragments : List (Fragment Value))
    (elemID : ElemID) :
    (fragments.length = 1 →
      getValuePathHints fragments elemID =
        [PathHint.mk elemID.getFullName [(fragments.head!).path]]) ∧
    (fragments.length ≠ 1 → (∀ f ∈ fragments, f.value.isPlainObject) →
      getValuePathHints fragments elemID =
        (uniq (fragments.flatMap (fun f => f.value.objKeys))).flatMap
          (fun key => getValuePathHints
            ((fragments.filter (fun f => (f.value.objGet key).isDefined)).map
              (fun f => Fragment.mk (f.value.objGet key) f.path))
            (elemID.createNestedID key))) ∧
    (fragments.length ≠ 1 → ¬ (∀ f ∈ fragments, f.value.isPlainObject) →
      getValuePathHints fragments elemID = []) := by
  refine ⟨?_, ?_, ?_⟩
  · intro h1
    rw [getValuePathHints, if_pos h1]
  · intro h1 hall
    have hall2 : fragments.all (fun f => f.value.isPlainObject) = true := by
      rw [List.all_eq_true]
      exact hall
    rw [getValuePathHints, if_neg h1, if_pos hall2]
    exact attach_flatMap_eq (uniq (fragments.flatMap fun f => f.value.objKeys))
      (fun key => getValuePathHints
        ((fragments.filter (fun f => (f.value.objGet key).isDefined)).map
          (fun f => Fragment.mk (f.value.objGet key) f.path))
        (elemID.createNestedID key))
  · intro h1 hall
    have hall2 : ¬ (fragments.all (fun f => f.value.isPlainObject) = true) := by
      rw [List.all_eq_true]
      exact hall
    rw [getValuePathHints, if_neg h1, if_neg hall2]

/-- C3 witness: two plain-object fragments recurse per key. -/
theorem getValuePathHints_cases_witness :
    ([Fragment.mk (Value.map [("a", Value.prim "1")]) ["f1"],
        Fragment.mk (Value.map [("b", Value.prim "2")]) ["f2"]].length ≠ 1) ∧
    (∀ f ∈ [Fragment.mk (Value.map [("a", Value.prim "1")]) ["f1"],
        Fragment.mk (Value.map [("b", Value.prim "2")]) ["f2"]],
      f.value.isPlainObject) ∧
    getValuePathHints
        [Fragment.mk (Value.map [("a", Value.prim "1")]) ["f1"],
          Fragment.mk (Value.map [("b", Value.prim "2")]) ["f2"]]
        (ElemID.mk ["X", "t"] 2) =
      (uniq ([Fragment.mk (Value.map [("a", Value.prim "1")]) ["f1"],
          Fragment.mk (Value.map [("b", Value.prim "2")]) ["f2"]].flatMap
            (fun f => f.value.objKeys))).flatMap
        (fun key => getValuePathHints
          (([Fragment.mk (Value.map [("a", Value.prim "1")]) ["f1"],
              Fragment.mk (Value.map [("b", Value.prim "2")]) ["f2"]].filter
                (fun f => (f.value.objGet key).isDefined)).map
            (fun f => Fragment.mk (f.value.objGet key) f.path))
          ((ElemID.mk ["X", "t"] 2).createNestedID key)) := by
  refine ⟨by decide, by decide, ?_⟩
  exact (getValuePathHints_cases
    [Fragment.mk (Value.map [("a", Value.prim "1")]) ["f1"],
      Fragment.mk (Value.map [("b", Value.prim "2")]) ["f2"]]
    (ElemID.mk ["X", "t"] 2)).2.1 (by decide) (by decide)

theorem head!_map {α β : Type} [Inhabited α] [Inhabited β] (f : α → β)
    (l : List α) (h : l ≠ []) : (l.map f).head! = f l.head! := by
  cases l with
  | nil => exact absurd rfl h
  | cons a rest => rfl

theorem fieldsGet_some_eq {fs : List (String × Field)} {n : String} {fld : Field}
    (h : fieldsGet fs n = some fld) : ∃ p ∈ fs, p.1 = n ∧ p.2 = fld := by
  rw [fieldsGet] at h
  cases hf : fs.find? (fun p => p.1 = n) with
  | none => rw [hf] at h; cases h
  | some p =>
    rw [hf] at h
    have hp := List.find?_some hf
    simp only [decide_eq_true_eq] at hp
    exact ⟨p, List.mem_of_find?_eq_some hf, hp, by injection h⟩

/-- The head fragment contributing a given field name carries the field
whose id is the field name nested under `id.field`. -/
theorem contrib_head_elemID (fragments : List (Fragment Element))
    (objId : ElemID) (n : String)
    (hwf : ∀ f ∈ fragments, ∀ p ∈ (f.value).fields,
      p.2.elemID = (objId.createNestedID "field").createNestedID p.1)
    (hne : fragments.filter (fun f => (fieldsGet f.value.fields n).isSome) ≠ []) :
    (((fragments.filter (fun f => (fieldsGet f.value.fields n).isSome)).map
        (fun f => Fragment.mk ((fieldsGet f.value.fields n).getD default)
          f.path)).head!).value.elemID =
      (objId.createNestedID "field").createNestedID n := by
  rw [head!_map _ _ hne]
  have hh := head!_mem hne
  obtain ⟨hmem, hsome⟩ := List.mem_filter.mp hh
  rw [Option.isSome_iff_exists] at hsome
  obtain ⟨fld, hfld⟩ := hsome
  simp only [hfld, Option.getD_some]
  obtain ⟨p, hp, hpn, hpfld⟩ := fieldsGet_some_eq hfld
  rw [← hpfld, hwf _ hmem p hp, hpn]

/-- C4 counterexample: for the stated claim, two ObjectType fragments of
which exactly one defines field `a` (the other having no fields) should
yield one hint keyed at the field's id `s.o.field.a`; the code instead
emits a single hint keyed at the container id `s.o.field`. -/
theorem getFieldsPathHints_claim_counterexample :
    ([Fragment.mk (Element.mk (ElemID.mk ["s", "o"] 2) none [] []
        (ElementKind.objectType
          [("a", Field.mk (ElemID.mk ["s", "o", "field", "a"] 2) [])])) ["p1"],
      Fragment.mk (Element.mk (ElemID.mk ["s", "o"] 2) none [] []
        (ElementKind.objectType [])) ["p2"]].length = 2) ∧
    (∀ f ∈ [Fragment.mk (Element.mk (ElemID.mk ["s", "o"] 2) none [] []
        (ElementKind.objectType
          [("a", Field.mk (ElemID.mk ["s", "o", "field", "a"] 2) [])])) ["p1"],
      Fragment.mk (Element.mk (ElemID.mk ["s", "o"] 2) none [] []
        (ElementKind.objectType [])) ["p2"]], isObjectType f.value) ∧
    (([Fragment.mk (Element.mk (ElemID.mk ["s", "o"] 2) none [] []
        (ElementKind.objectType
          [("a", Field.mk (ElemID.mk ["s", "o", "field", "a"] 2) [])])) ["p1"],
      Fragment.mk (Element.mk (ElemID.mk ["s", "o"] 2) none [] []
        (ElementKind.objectType [])) ["p2"]].filter
          (fun f => (fieldsGet f.value.fields "a").isSome)).length = 1) ∧
    getFieldsPathHints
        [Fragment.mk (Element.mk (ElemID.mk ["s", "o"] 2) none [] []
          (ElementKind.objectType
            [("a", Field.mk (ElemID.mk ["s", "o", "field", "a"] 2) [])])) ["p1"],
        Fragment.mk (Element.mk (ElemID.mk ["s", "o"] 2) none [] []
          (ElementKind.objectType [])) ["p2"]] =
      [PathHint.mk "s.o.field" [["p1"]]] ∧
    (∀ h ∈ getFieldsPathHints
        [Fragment.mk (Element.mk (ElemID.mk ["s", "o"] 2) none [] []
          (ElementKind.objectType
            [("a", Field.mk (ElemID.mk ["s", "o", "field", "a"] 2) [])])) ["p1"],
        Fragment.mk (Element.mk (ElemID.mk ["s", "o"] 2) none [] []
          (ElementKind.objectType [])) ["p2"]],
      h.key ≠ "s.o.field.a") := by
  refine ⟨by decide, by decide, by decide, by decide, by decide⟩

/-- C4 amended: for fragments of which at least two have non-empty field
mappings, the field hints are the per-field hints over the first-seen
union of field names; a field defined in exactly one fragment yields one
hint keyed at the field's id `id.field.<name>` with that fragment's path,
and a field defined in several fragments yields that field's
annotation-value hints keyed at the field's id plus a catch-all hint at
the field's id listing all contributing paths in order. -/
theorem getFieldsPathHints_union (fragments : List (Fragment Element))
    (objId : ElemID)
    (h2 : 2 ≤ (fragments.filter (fun f => !f.value.fields.isEmpty)).length)
    (hwf : ∀ f ∈ fragments, ∀ p ∈ (f.value).fields,
      p.2.elemID = (objId.createNestedID "field").createNestedID p.1) :
    getFieldsPathHints fragments =
      (uniq ((fragments.filter (fun f => !f.value.fields.isEmpty)).flatMap
        (fun f => f.value.fields.map (fun x => x.1)))).flatMap (fun n =>
          getFieldPathHints
            ((fragments.filter (fun f =>
                (fieldsGet f.value.fields n).isSome)).map
              (fun f => Fragment.mk ((fieldsGet f.value.fields n).getD default)
                f.path))) ∧
    (∀ n, ((fragments.filter (fun f =>
          (fieldsGet f.value.fields n).isSome)).map
        (fun f => Fragment.mk ((fieldsGet f.value.fields n).getD default)
          f.path)).length = 1 →
      getFieldPathHints ((fragments.filter (fun f =>
          (fieldsGet f.value.fields n).isSome)).map
        (fun f => Fragment.mk ((fieldsGet f.value.fields n).getD default)
          f.path)) =
        [PathHint.mk
          (((objId.createNestedID "field").createNestedID n).getFullName)
          [(((fragments.filter (fun f =>
              (fieldsGet f.value.fields n).isSome)).map
            (fun f => Fragment.mk ((fieldsGet f.value.fields n).getD default)
              f.path)).head!).path]]) ∧
    (∀ n, 2 ≤ ((fragments.filter (fun f =>
          (fieldsGet f.value.fields n).isSome)).map
        (fun f => Fragment.mk ((fieldsGet f.value.fields n).getD default)
          f.path)).length →
      getFieldPathHints ((fragments.filter (fun f =>
          (fieldsGet f.value.fields n).isSome)).map
        (fun f => Fragment.mk ((fieldsGet f.value.fields n).getD default)
          f.path)) =
        getValuePathHints
          (((fragments.filter (fun f =>
              (fieldsGet f.value.fields n).isSome)).map
            (fun f => Fragment.mk ((fieldsGet f.value.fields n).getD default)
              f.path)).map (fun g =>
                Fragment.mk (Value.map g.value.annotations) g.path))
          ((objId.createNestedID "field").createNestedID n)
        ++ [PathHint.mk
            (((objId.createNestedID "field").createNestedID n).getFullName)
            (((fragments.filter (fun f =>
                (fieldsGet f.value.fields n).isSome)).map
              (fun f => Fragment.mk ((fieldsGet f.value.fields n).getD default)
                f.path)).map (fun g => g.path))]) := by
  refine ⟨?_, ?_, ?_⟩
  · rw [getFieldsPathHints, if_neg (by omega)]
  · intro n hlen
    have hne : fragments.filter (fun f => (fieldsGet f.value.fields n).isSome)
        ≠ [] := by
      intro hc
      rw [hc] at hlen
      simp at hlen
    rw [getFieldPathHints, if_neg (by omega), if_pos hlen,
      contrib_head_elemID fragments objId n hwf hne]
  · intro n hlen
    have hne : fragments.filter (fun f => (fieldsGet f.value.fields n).isSome)
        ≠ [] := by
      intro hc
      rw [hc] at hlen
      simp at hlen
    rw [getFieldPathHints, if_neg (by omega), if_neg (by omega),
      contrib_head_elemID fragments objId n hwf hne]

/-- C4 witness: two ObjectType fragments both defining field `a`. -/
theorem getFieldsPathHints_union_witness :
    (2 ≤ ([Fragment.mk (Element.mk (ElemID.mk ["s", "o"] 2) none [] []
        (ElementKind.objectType
          [("a", Field.mk (ElemID.mk ["s", "o", "field", "a"] 2) [])])) ["p1"],
      Fragment.mk (Element.mk (ElemID.mk ["s", "o"] 2) none [] []
        (ElementKind.objectType
          [("a", Field.mk (ElemID.mk ["s", "o", "field", "a"] 2) [])])) ["p2"]].filter
            (fun f => !f.value.fields.isEmpty)).length) ∧
    getFieldsPathHints
        [Fragment.mk (Element.mk (ElemID.mk ["s", "o"] 2) none [] []
          (ElementKind.objectType
            [("a", Field.mk (ElemID.mk ["s", "o", "field", "a"] 2) [])])) ["p1"],
        Fragment.mk (Element.mk (ElemID.mk ["s", "o"] 2) none [] []
          (ElementKind.objectType
            [("a", Field.mk (ElemID.mk ["s", "o", "field", "a"] 2) [])])) ["p2"]] =
      (uniq (([Fragment.mk (Element.mk (ElemID.mk ["s", "o"] 2) none [] []
          (ElementKind.objectType
            [("a", Field.mk (ElemID.mk ["s", "o", "field", "a"] 2) [])])) ["p1"],
        Fragment.mk (Element.mk (ElemID.mk ["s", "o"] 2) none [] []
          (ElementKind.objectType
            [("a", Field.mk (ElemID.mk ["s", "o", "field", "a"] 2) [])])) ["p2"]].filter
              (fun f => !f.value.fields.isEmpty)).flatMap
        (fun f => f.value.fields.map (fun x => x.1)))).flatMap (fun n =>
          getFieldPathHints
            (([Fragment.mk (Element.mk (ElemID.mk ["s", "o"] 2) none [] []
                (ElementKind.objectType
                  [("a", Field.mk (ElemID.mk ["s", "o", "field", "a"] 2) [])]))
                ["p1"],
              Fragment.mk (Element.mk (ElemID.mk ["s", "o"] 2) none [] []
                (ElementKind.objectType
                  [("a", Field.mk (ElemID.mk ["s", "o", "field", "a"] 2) [])]))
                ["p2"]].filter (fun f =>
                  (fieldsGet f.value.fields n).isSome)).map
              (fun f => Fragment.mk ((fieldsGet f.value.fields n).getD default)
                f.path))) := by
  refine ⟨by decide, ?_⟩
  exact (getFieldsPathHints_union
    [Fragment.mk (Element.mk (ElemID.mk ["s", "o"] 2) none [] []
      (ElementKind.objectType
        [("a", Field.mk (ElemID.mk ["s", "o", "field", "a"] 2) [])])) ["p1"],
    Fragment.mk (Element.mk (ElemID.mk ["s", "o"] 2) none [] []
      (ElementKind.objectType
        [("a", Field.mk (ElemID.mk ["s", "o", "field", "a"] 2) [])])) ["p2"]]
    (ElemID.mk ["s", "o"] 2) (by decide) (by decide)).1

theorem reduceOption_map_eq_filterMap {α β : Type} (l : List α)
    (f : α → Option β) : (l.map f).reduceOption = l.filterMap f := by
  induction l with
  | nil => rfl
  | cons a rest ih =>
    cases h : f a with
    | none => simp [List.reduceOption_cons_of_none, h, ih]
    | some b => simp [List.reduceOption_cons_of_some, h, ih]

/-- C8: `splitElementByPath` with at most one resolved path returns one
copy whose path is the single resolved path or unset; with more than one
it returns, in resolved-path order, the filtered copy per resolved path
(membership of the path in each sub-id's own resolved set), each tagged
with its path, copies whose filtering removed everything dropped. -/
theorem splitElementByPath_cases (element : Element) (index : Store) :
    ((getFromPathIndex element.elemID index).length ≤ 1 →
      splitElementByPath element index =
        [{ element with path := (getFromPathIndex element.elemID index).head? }]) ∧
    (1 < (getFromPathIndex element.elemID index).length →
      splitElementByPath element index =
        (getFromPathIndex element.elemID index).filterMap (fun hint =>
          (filterElementByID
            (fun id => (getFromPathIndex id index).any
              (fun idHint => idHint == hint))
            element).map (fun fe => { fe with path := some hint }))) := by
  constructor
  · intro h
    rw [splitElementByPath, if_pos h]
  · intro h
    rw [splitElementByPath, if_neg (by omega)]
    exact reduceOption_map_eq_filterMap _ _

/-- C8 witness: an element with no resolved path is returned as a single
untagged copy. -/
theorem splitElementByPath_cases_witness :
    ((getFromPathIndex (ElemID.mk ["a", "b"] 2) ([] : Store)).length ≤ 1) ∧
    splitElementByPath
        (Element.mk (ElemID.mk ["a", "b"] 2) none [] [] ElementKind.other)
        ([] : Store) =
      [{ Element.mk (ElemID.mk ["a", "b"] 2) none [] [] ElementKind.other with
          path := (getFromPathIndex (ElemID.mk ["a", "b"] 2)
            ([] : Store)).head? }] := by
  have h0 : getFromPathIndex (ElemID.mk ["a", "b"] 2) ([] : Store) = [] := by
    show getFromPathIndexGo [] (ElemID.topLevelParentKey (ElemID.mk ["a", "b"] 2))
      ["a", "b"] true = []
    rw [getFromPathIndexGo_eq]
    simp [Store.get, ElemID.topLevelParentKey, joinDot]
  have hlen : (getFromPathIndex (ElemID.mk ["a", "b"] 2) ([] : Store)).length
      ≤ 1 := by
    rw [h0]
    simp
  exact ⟨hlen, (splitElementByPath_cases
    (Element.mk (ElemID.mk ["a", "b"] 2) none [] [] ElementKind.other)
    ([] : Store)).1 hlen⟩

end Salto
